import Mathlib

/-!
# Verification of the streaming-libdeflate decompressor core

A shallow embedding, in Lean 4, of the data model and the operations of the
streaming DEFLATE/GZIP decompressor (bit reader, Huffman decode-table builder,
dynamic-block header decoder, match-copy primitive, chunked input and output
windows, gzip trailer validation, and the top-level driver loop), together with
theorems settling the specification claims about them.

Conventions used throughout:
* machine integers are modelled as `Nat`, with explicit `% 2^w` where wrap-around
  matters;
* byte memory (the input and output windows) is modelled as a total function
  `Nat → Nat` from addresses to byte values, updated functionally;
* fallible operations return `Except LibdeflateError`, and loops whose
  termination depends on data validity take an explicit fuel argument and
  return `Option` (with `none` for fuel exhaustion, which the original code
  would express as continued looping).
-/

set_option maxRecDepth 8000

namespace StreamingLibdeflate

/-- Point update of a byte memory. -/
def upd (m : Nat → Nat) (a v : Nat) : Nat → Nat :=
  fun x => if x = a then v else m x

theorem upd_same (m : Nat → Nat) (a v : Nat) : upd m a v a = v := by
  simp [upd]

theorem upd_other (m : Nat → Nat) (a v x : Nat) (h : x ≠ a) : upd m a v x = m x := by
  simp [upd, h]

/-- The error taxonomy of the decompressor (`LibdeflateError` in `lib.rs`). -/
inductive LibdeflateError
  | BadData
  | ShortOutput
  | InsufficientSpace
  deriving DecidableEq, Repr

/-! ## The bit reader (`bitstream.rs`)

The state of `BitStream`: a bit buffer `bitbuf` with `bitsleft` valid low bits,
a sub-byte input offset `inbits_offset`, and the underlying input stream.  The
input stream is modelled by its byte contents (a total function, unread
positions past EOF standing for the safe overread tail) and the read position.
-/

/-- Byte source underlying a `BitStream`: the bytes visible through the input
window, and the current read position. -/
structure ByteSource where
  data : Nat → Nat
  pos : Nat

/-- `get_le_word_no_advance`: the next 8 bytes at `pos`, packed little-endian. -/
def get_le_word_no_advance (s : ByteSource) : Nat :=
  (List.range 8).foldr (fun i acc => acc * 256 + s.data (s.pos + i) % 256) 0

/-- The state of `BitStream` (`bitstream.rs`). -/
structure BitStream where
  bitbuf : Nat
  bitsleft : Nat
  inbits_offset : Nat
  input_stream : ByteSource

/-- `WORDBITS`: bits of the machine word backing `bitbuf` (`usize` is 64-bit). -/
def WORDBITS : Nat := 64

/-- `BITBUF_MAXBITS = 8 * size_of::<usize>() - 8`. -/
def BITBUF_MAXBITS : Nat := WORDBITS - 8

/-- `MAX_ENSURE`: the largest argument `ensure_bits` accepts. -/
def MAX_ENSURE : Nat := BITBUF_MAXBITS

/-- `fill_bits_wordwise` (`bitstream.rs:87-113`): read one little-endian word at
the input position, shift it above the live bits, advance the input by the
bytes that fit, and set `bitsleft` to `BITBUF_MAXBITS`. -/
def fill_bits_wordwise (s : BitStream) : BitStream :=
  let bytes_to_read := BITBUF_MAXBITS - s.bitsleft
  let new_word := (get_le_word_no_advance s.input_stream) >>> s.inbits_offset
  let word_with_offset := (new_word <<< s.bitsleft) % 2 ^ WORDBITS
  let bitbuf := s.bitbuf ||| word_with_offset
  let new_offset := s.inbits_offset + bytes_to_read
  { bitbuf := bitbuf
    bitsleft := BITBUF_MAXBITS
    inbits_offset := new_offset % 8
    input_stream :=
      { s.input_stream with pos := s.input_stream.pos + new_offset / 8 } }

/-- `have_bits n` (`bitstream.rs:119-121`). -/
def have_bits (s : BitStream) (n : Nat) : Bool :=
  n ≤ s.bitsleft

/-- `ensure_bits n` (`bitstream.rs:129-139`): refill word-wise when fewer than
`n` bits are buffered.  (`ensure_overread_length` on the input stream does not
change the bit-reader state and is settled separately, in the chunked-input
model.) -/
def ensure_bits (s : BitStream) (n : Nat) : BitStream :=
  if have_bits s n then s else fill_bits_wordwise s

/-- `bits n` (`bitstream.rs:160-162`): the low `n` bits, without removal. -/
def BitStream.bits (s : BitStream) (n : Nat) : Nat :=
  (s.bitbuf % 2 ^ 32) &&& (2 ^ n - 1)

/-- `remove_bits n` (`bitstream.rs:176-179`). -/
def remove_bits (s : BitStream) (n : Nat) : BitStream :=
  { s with bitbuf := s.bitbuf >>> n, bitsleft := s.bitsleft - n }

/-- `pop_bits n` (`bitstream.rs:185-189`). -/
def pop_bits (s : BitStream) (n : Nat) : Nat × BitStream :=
  (s.bits n, remove_bits s n)

/-- C6.  After `fill_bits_wordwise`, the buffered-bit count lands in
`[WORDBITS - 8, WORDBITS - 1]` (the code pins it to exactly `WORDBITS - 8`),
and for `n ≤ MAX_ENSURE`, `ensure_bits n` leaves at least `n` valid bits. -/
theorem fill_and_ensure_bits_bounds (s : BitStream) (n : Nat) (hn : n ≤ MAX_ENSURE) :
    (WORDBITS - 8 ≤ (fill_bits_wordwise s).bitsleft ∧
      (fill_bits_wordwise s).bitsleft ≤ WORDBITS - 1) ∧
    n ≤ (ensure_bits s n).bitsleft := by
  refine ⟨⟨le_refl _, by norm_num [fill_bits_wordwise, BITBUF_MAXBITS, WORDBITS]⟩, ?_⟩
  unfold ensure_bits have_bits
  by_cases h : n ≤ s.bitsleft
  · simpa [h] using h
  · simpa [h, fill_bits_wordwise] using hn

/-- Witness for C6 at a concrete bit-reader state and `n = 20`. -/
theorem fill_and_ensure_bits_bounds_witness :
    20 ≤ MAX_ENSURE ∧
    ((WORDBITS - 8 ≤ (fill_bits_wordwise ⟨0, 0, 0, ⟨fun _ => 0, 0⟩⟩).bitsleft ∧
        (fill_bits_wordwise ⟨0, 0, 0, ⟨fun _ => 0, 0⟩⟩).bitsleft ≤ WORDBITS - 1) ∧
      20 ≤ (ensure_bits ⟨0, 0, 0, ⟨fun _ => 0, 0⟩⟩ 20).bitsleft) :=
  ⟨by norm_num [MAX_ENSURE, BITBUF_MAXBITS, WORDBITS],
    fill_and_ensure_bits_bounds ⟨0, 0, 0, ⟨fun _ => 0, 0⟩⟩ 20
      (by norm_num [MAX_ENSURE, BITBUF_MAXBITS, WORDBITS])⟩

/-! ## The chunked output window (`streams/deflate_chunked_buffer_output.rs`)

`DeflateChunkedBufferOutput`: a buffer of size `MAX_LOOK_BACK + buf_size +
OVERWRITE_MAX`, a cursor (`current_ptr`, kept here as an index from the buffer
start), the limit `last_usable_ptr`, the rolling CRC-32 hasher (modelled by the
list of bytes fed to it), the `written` counter, and the sink callback
(modelled by an acceptance predicate on chunks, plus a ghost log of the bytes
the sink accepted). -/

/-- `DeflateOutput::MAX_LOOK_BACK` (`lib.rs:112`). -/
def MAX_LOOK_BACK_OUT : Nat := 32768

/-- `DeflateOutput::OVERWRITE_MAX` (`lib.rs:113`). -/
def OVERWRITE_MAX : Nat := 16

/-- State of `DeflateChunkedBufferOutput`. -/
structure OutputWindow where
  buffer : Nat → Nat
  cur : Nat
  last_usable : Nat
  crc_bytes : List Nat
  written : Nat
  sink_log : List Nat

/-- The region `[MAX_LOOK_BACK, current_ptr)` that `flush_buffer` drains. -/
def pending_chunk (s : OutputWindow) : List Nat :=
  (List.range (s.cur - MAX_LOOK_BACK_OUT)).map (fun i => s.buffer (MAX_LOOK_BACK_OUT + i))

/-- `flush_buffer` (`deflate_chunked_buffer_output.rs:34-53`): hash the region
`[MAX_LOOK_BACK, current_ptr)` into the CRC, pass it to the sink callback; on
rejection return `false` with the state otherwise untouched; on acceptance bump
`written`, memmove the `MAX_LOOK_BACK` bytes preceding the cursor to the head,
and reset the cursor. -/
def flush_buffer (accept : List Nat → Bool) (s : OutputWindow) : OutputWindow × Bool :=
  let last_index := s.cur
  let chunk := pending_chunk s
  let s1 := { s with crc_bytes := s.crc_bytes ++ chunk }
  if accept chunk then
    ({ s1 with
        written := s1.written + (last_index - MAX_LOOK_BACK_OUT)
        sink_log := s1.sink_log ++ chunk
        buffer := fun a =>
          if a < MAX_LOOK_BACK_OUT then s.buffer (last_index - MAX_LOOK_BACK_OUT + a)
          else s.buffer a
        cur := MAX_LOOK_BACK_OUT }, true)
  else (s1, false)

/-- `has_writable_length` (`deflate_chunked_buffer_output.rs:58-60`):
`current_ptr + length <= last_usable_ptr`. -/
def has_writable_length (s : OutputWindow) (length : Nat) : Bool :=
  s.cur + length ≤ s.last_usable

/-- `flush_ensure_length` (`deflate_chunked_buffer_output.rs:62-69`). -/
def flush_ensure_length (accept : List Nat → Bool) (s : OutputWindow) (length : Nat) :
    OutputWindow × Bool :=
  if has_writable_length s length then (s, true)
  else flush_buffer accept s

/-- Result of `final_flush` (`OutStreamResult` in `decompress_deflate.rs:60-63`).
The CRC-32 value is produced by the external CRC leaf dependency, passed in as
`crcFinalize` below. -/
structure OutStreamResult where
  written : Nat
  crc32 : Nat

/-- `final_flush` (`deflate_chunked_buffer_output.rs:108-120`).  Note that the
code invokes `flush_buffer` as a statement (`self.flush_buffer();`), discarding
its boolean result, then unconditionally resets the cursor and returns
`Ok(result)`. -/
def final_flush (crcFinalize : List Nat → Nat) (accept : List Nat → Bool)
    (s : OutputWindow) : Except Unit (OutStreamResult × OutputWindow) :=
  let s1 := (flush_buffer accept s).1
  let s2 := { s1 with cur := MAX_LOOK_BACK_OUT }
  let result : OutStreamResult := { written := s2.written, crc32 := crcFinalize s2.crc_bytes }
  .ok (result, { s2 with crc_bytes := [], written := 0 })

/-- The call site in `decompress_gzip.rs:108-110`:
`out_stream.final_flush().map_err(|_| LibdeflateError::InsufficientSpace)`. -/
def gzip_finalize (crcFinalize : List Nat → Nat) (accept : List Nat → Bool)
    (s : OutputWindow) : Except LibdeflateError OutStreamResult :=
  match final_flush crcFinalize accept s with
  | .ok (r, _) => .ok r
  | .error _ => .error .InsufficientSpace

/-- C5.  The code never surfaces a sink failure: `final_flush` discards the
boolean returned by `flush_buffer` and always returns `Ok`, so the
`map_err(|_| InsufficientSpace)` at the gzip call site can never fire — even
for a sink callback that rejects every chunk, with decompressed bytes pending.
This contradicts the claim that a sink error aborts decompression with
`Err(InsufficientSpace)`. -/
theorem final_flush_ignores_sink_failure :
    ∀ (crcFinalize : List Nat → Nat) (s : OutputWindow),
      (∃ r s', final_flush crcFinalize (fun _ => false) s = .ok (r, s')) ∧
      (∃ r, gzip_finalize crcFinalize (fun _ => false) s = .ok r) := by
  intro crcFinalize s
  constructor
  · exact ⟨_, _, rfl⟩
  · exact ⟨_, rfl⟩

/-- History invariant of the output window: the bytes just below the
`MAX_LOOK_BACK` boundary agree with the most recently delivered sink bytes. -/
def OutputHistoryInv (s : OutputWindow) : Prop :=
  ∀ k, k < MAX_LOOK_BACK_OUT → k < s.sink_log.length →
    s.buffer (MAX_LOOK_BACK_OUT - 1 - k) = s.sink_log.getD (s.sink_log.length - 1 - k) 0

/-- What one successful `flush_buffer` call does (the amended C7). -/
def FlushBufferConclusion (accept : List Nat → Bool) (s : OutputWindow) : Prop :=
  (flush_buffer accept s).2 = true ∧
  ((flush_buffer accept s).1).sink_log = s.sink_log ++ pending_chunk s ∧
  ((flush_buffer accept s).1).crc_bytes = s.crc_bytes ++ pending_chunk s ∧
  ((flush_buffer accept s).1).written = s.written + (s.cur - MAX_LOOK_BACK_OUT) ∧
  ((flush_buffer accept s).1).cur = MAX_LOOK_BACK_OUT ∧
  OutputHistoryInv ((flush_buffer accept s).1) ∧
  (MAX_LOOK_BACK_OUT ≤ ((flush_buffer accept s).1).sink_log.length →
    ∀ a, a < MAX_LOOK_BACK_OUT →
      ((flush_buffer accept s).1).buffer a =
        ((flush_buffer accept s).1).sink_log.getD
          (((flush_buffer accept s).1).sink_log.length - MAX_LOOK_BACK_OUT + a) 0)

theorem pending_chunk_length (s : OutputWindow) :
    (pending_chunk s).length = s.cur - MAX_LOOK_BACK_OUT := by
  simp [pending_chunk]

theorem pending_chunk_getD (s : OutputWindow) (j : Nat) (hj : j < s.cur - MAX_LOOK_BACK_OUT) :
    (pending_chunk s).getD j 0 = s.buffer (MAX_LOOK_BACK_OUT + j) := by
  simp [pending_chunk, List.getD, List.getElem?_map, List.getElem?_range, hj]

theorem flush_buffer_accepted_eq (accept : List Nat → Bool) (s : OutputWindow)
    (hacc : accept (pending_chunk s) = true) :
    flush_buffer accept s =
      ({ buffer := fun a =>
            if a < MAX_LOOK_BACK_OUT then s.buffer (s.cur - MAX_LOOK_BACK_OUT + a)
            else s.buffer a
         cur := MAX_LOOK_BACK_OUT
         last_usable := s.last_usable
         crc_bytes := s.crc_bytes ++ pending_chunk s
         written := s.written + (s.cur - MAX_LOOK_BACK_OUT)
         sink_log := s.sink_log ++ pending_chunk s }, true) := by
  simp only [flush_buffer, hacc, if_true]

theorem flush_buffer_inv_preserved (accept : List Nat → Bool) (s : OutputWindow)
    (hcur : MAX_LOOK_BACK_OUT ≤ s.cur) (hinv : OutputHistoryInv s)
    (hacc : accept (pending_chunk s) = true) :
    OutputHistoryInv ((flush_buffer accept s).1) := by
  have hMLB : 0 < MAX_LOOK_BACK_OUT := by norm_num [MAX_LOOK_BACK_OUT]
  have hL : (pending_chunk s).length = s.cur - MAX_LOOK_BACK_OUT := pending_chunk_length s
  rw [flush_buffer_accepted_eq accept s hacc]
  intro k hk hklen
  simp only [List.length_append, hL] at hklen ⊢
  have haddr : MAX_LOOK_BACK_OUT - 1 - k < MAX_LOOK_BACK_OUT := by omega
  simp only [haddr, if_true]
  by_cases hcase : k < s.cur - MAX_LOOK_BACK_OUT
  · -- the matching byte lies inside the chunk just delivered
    have hidx : s.sink_log.length ≤
        s.sink_log.length + (s.cur - MAX_LOOK_BACK_OUT) - 1 - k := by omega
    calc s.buffer (s.cur - MAX_LOOK_BACK_OUT + (MAX_LOOK_BACK_OUT - 1 - k))
        = s.buffer (MAX_LOOK_BACK_OUT +
            (s.sink_log.length + (s.cur - MAX_LOOK_BACK_OUT) - 1 - k -
              s.sink_log.length)) := by
          exact congrArg s.buffer (by omega)
      _ = (pending_chunk s).getD
            (s.sink_log.length + (s.cur - MAX_LOOK_BACK_OUT) - 1 - k -
              s.sink_log.length) 0 :=
          (pending_chunk_getD s _ (by omega)).symm
      _ = (s.sink_log ++ pending_chunk s).getD
            (s.sink_log.length + (s.cur - MAX_LOOK_BACK_OUT) - 1 - k) 0 :=
          (List.getD_append_right _ _ _ _ hidx).symm
  · -- the matching byte predates this flush: use the incoming invariant
    have hkl : k - (s.cur - MAX_LOOK_BACK_OUT) < s.sink_log.length := by omega
    have hidx : s.sink_log.length + (s.cur - MAX_LOOK_BACK_OUT) - 1 - k
        < s.sink_log.length := by omega
    calc s.buffer (s.cur - MAX_LOOK_BACK_OUT + (MAX_LOOK_BACK_OUT - 1 - k))
        = s.buffer (MAX_LOOK_BACK_OUT - 1 - (k - (s.cur - MAX_LOOK_BACK_OUT))) := by
          exact congrArg s.buffer (by omega)
      _ = s.sink_log.getD
            (s.sink_log.length - 1 - (k - (s.cur - MAX_LOOK_BACK_OUT))) 0 :=
          hinv (k - (s.cur - MAX_LOOK_BACK_OUT)) (by omega) hkl
      _ = s.sink_log.getD
            (s.sink_log.length + (s.cur - MAX_LOOK_BACK_OUT) - 1 - k) 0 :=
          congrArg (fun n => s.sink_log.getD n 0) (by omega)
      _ = (s.sink_log ++ pending_chunk s).getD
            (s.sink_log.length + (s.cur - MAX_LOOK_BACK_OUT) - 1 - k) 0 :=
          (List.getD_append _ _ _ _ hidx).symm

/-- C7 (amended).  On every flush whose sink call succeeds: exactly the bytes
of `[MAX_LOOK_BACK, cursor)` are delivered to the sink and hashed into the
rolling CRC-32, `written` grows by the size of that region, the cursor resets
to `MAX_LOOK_BACK`, the history invariant is preserved, and once at least
`MAX_LOOK_BACK` bytes have been delivered in total, the leading `MAX_LOOK_BACK`
bytes of the buffer are byte-identical to the last `MAX_LOOK_BACK` bytes
delivered to the sink. -/
theorem flush_buffer_drain_correct (accept : List Nat → Bool) (s : OutputWindow)
    (hcur : MAX_LOOK_BACK_OUT ≤ s.cur) (hinv : OutputHistoryInv s)
    (hacc : accept (pending_chunk s) = true) :
    FlushBufferConclusion accept s := by
  have hMLB : 0 < MAX_LOOK_BACK_OUT := by norm_num [MAX_LOOK_BACK_OUT]
  have hinv' := flush_buffer_inv_preserved accept s hcur hinv hacc
  refine ⟨?_, ?_, ?_, ?_, ?_, hinv', ?_⟩
  · rw [flush_buffer_accepted_eq accept s hacc]
  · rw [flush_buffer_accepted_eq accept s hacc]
  · rw [flush_buffer_accepted_eq accept s hacc]
  · rw [flush_buffer_accepted_eq accept s hacc]
  · rw [flush_buffer_accepted_eq accept s hacc]
  · intro hlen a ha
    have h1 := hinv' (MAX_LOOK_BACK_OUT - 1 - a) (by omega) (by omega)
    have haddr : MAX_LOOK_BACK_OUT - 1 - (MAX_LOOK_BACK_OUT - 1 - a) = a := by omega
    have hidx : ((flush_buffer accept s).1).sink_log.length - 1 -
          (MAX_LOOK_BACK_OUT - 1 - a)
        = ((flush_buffer accept s).1).sink_log.length - MAX_LOOK_BACK_OUT + a := by
      omega
    rw [haddr, hidx] at h1
    exact h1

/-- A concrete output state with one pending byte: used to refute C7 as
stated, under a sink callback that rejects the chunk. -/
def rejectedFlushState : OutputWindow :=
  { buffer := fun _ => 0
    cur := MAX_LOOK_BACK_OUT + 1
    last_usable := MAX_LOOK_BACK_OUT + 4
    crc_bytes := []
    written := 0
    sink_log := [] }

/-- C7 counterexample.  The claim quantifies over every flush; on a flush whose
sink callback rejects the chunk, the `written` counter does not increase by the
region size and the cursor is not reset, so the claim as stated fails. -/
theorem flush_buffer_claim_counterexample :
    ¬ (((flush_buffer (fun _ => false) rejectedFlushState).1).written
          = rejectedFlushState.written +
              (rejectedFlushState.cur - MAX_LOOK_BACK_OUT) ∧
        ((flush_buffer (fun _ => false) rejectedFlushState).1).cur
          = MAX_LOOK_BACK_OUT) := by
  intro h
  have h1 := h.1
  have hrej : flush_buffer (fun _ => false) rejectedFlushState
      = ({ rejectedFlushState with
            crc_bytes := rejectedFlushState.crc_bytes ++ pending_chunk rejectedFlushState },
          false) := by
    simp only [flush_buffer, Bool.false_eq_true, if_false]
  rw [hrej] at h1
  simp only [rejectedFlushState] at h1
  omega

/-- Witness for the amended C7 at a concrete state with two pending bytes and
an accepting sink. -/
theorem flush_buffer_drain_correct_witness :
    FlushBufferConclusion (fun _ => true)
      { buffer := fun _ => 3
        cur := MAX_LOOK_BACK_OUT + 2
        last_usable := MAX_LOOK_BACK_OUT + 4
        crc_bytes := []
        written := 0
        sink_log := [] } :=
  flush_buffer_drain_correct (fun _ => true) _ (by norm_num)
    (by intro k hk hklen; simp at hklen) rfl

/-! ## GZIP trailer validation (`decompress_gzip.rs`)

After the DEFLATE payload of a member decodes successfully and the output is
flushed, `libdeflate_gzip_decompress` (lines 119-129) reads a 4-byte
little-endian CRC-32 and a 4-byte little-endian ISIZE from the input and
compares them with the `OutStreamResult`.  The input here is the byte stream
with its read position; `read_le_u32` follows the `DeflateInput::read_le_u32`
default method (`lib.rs:104-108`): four output bytes initialised to zero, with
`read` copying the available bytes (`deflate_chunked_buffer_input.rs:87-108`)
— bytes past the end of the stream are left zero. -/

/-- The byte stream feeding the gzip frame handler. -/
structure GzipInput where
  data : List Nat
  pos : Nat

/-- `read_le_u32` over the modelled byte stream. -/
def read_le_u32 (s : GzipInput) : Nat × GzipInput :=
  let b := fun i => s.data.getD (s.pos + i) 0
  (b 0 + 256 * b 1 + 65536 * b 2 + 16777216 * b 3,
    { s with pos := s.pos + min 4 (s.data.length - s.pos) })

/-- Little-endian packing of four bytes. -/
def le32 (b0 b1 b2 b3 : Nat) : Nat := b0 + 256 * b1 + 65536 * b2 + 16777216 * b3

/-- The trailer phase of `libdeflate_gzip_decompress`
(`decompress_gzip.rs:119-129`): read the CRC-32, reject on mismatch with the
output's rolling CRC; read ISIZE, reject unless it equals `written` truncated
to 32 bits (`result.written as u32`); otherwise succeed. -/
def gzip_decompress_trailer (result : OutStreamResult) (s : GzipInput) :
    Except LibdeflateError Unit :=
  let r1 := read_le_u32 s
  if result.crc32 ≠ r1.1 then .error .BadData
  else
    let r2 := read_le_u32 r1.2
    if result.written % 2 ^ 32 ≠ r2.1 then .error .BadData
    else .ok ()

/-- The 4-byte little-endian CRC-32 value stored at the trailer's start. -/
def trailer_crc (s : GzipInput) : Nat :=
  le32 (s.data.getD (s.pos + 0) 0) (s.data.getD (s.pos + 1) 0)
    (s.data.getD (s.pos + 2) 0) (s.data.getD (s.pos + 3) 0)

/-- The 4-byte little-endian ISIZE value stored after the trailer CRC. -/
def trailer_isize (s : GzipInput) : Nat :=
  le32 (s.data.getD (s.pos + 4) 0) (s.data.getD (s.pos + 5) 0)
    (s.data.getD (s.pos + 6) 0) (s.data.getD (s.pos + 7) 0)

theorem gzip_trailer_eq (result : OutStreamResult) (s : GzipInput)
    (h8 : s.pos + 8 ≤ s.data.length) :
    gzip_decompress_trailer result s =
      if result.crc32 ≠ trailer_crc s then .error .BadData
      else if result.written % 2 ^ 32 ≠ trailer_isize s then .error .BadData
      else .ok () := by
  have hpos : min 4 (s.data.length - s.pos) = 4 := by omega
  simp only [gzip_decompress_trailer, read_le_u32, hpos, trailer_crc, trailer_isize,
    le32, Nat.add_zero]

/-- C1.  With the full 8-byte trailer available, the trailer check returns `Ok`
exactly when the rolling CRC-32 of the delivered bytes equals the 4-byte
little-endian trailer CRC and the delivered byte count modulo `2^32` equals the
4-byte little-endian ISIZE; any mismatch yields `Err(BadData)`. -/
theorem gzip_trailer_validation (result : OutStreamResult) (s : GzipInput)
    (h8 : s.pos + 8 ≤ s.data.length) :
    (gzip_decompress_trailer result s = .ok () ↔
      (result.crc32 = trailer_crc s ∧
        result.written % 2 ^ 32 = trailer_isize s)) ∧
    (gzip_decompress_trailer result s = .ok () ∨
      gzip_decompress_trailer result s = .error .BadData) := by
  rw [gzip_trailer_eq result s h8]
  by_cases h1 : result.crc32 = trailer_crc s <;>
    by_cases h2 : result.written % 2 ^ 32 = trailer_isize s <;>
      simp [h1, h2] <;> tauto

/-- Witness for C1: the one-byte member trailer (CRC `0xD3D99E8B`, ISIZE 1),
checked against a matching decode result. -/
theorem gzip_trailer_validation_witness :
    (⟨[0x8B, 0x9E, 0xD9, 0xD3, 1, 0, 0, 0], 0⟩ : GzipInput).pos + 8 ≤
        (⟨[0x8B, 0x9E, 0xD9, 0xD3, 1, 0, 0, 0], 0⟩ : GzipInput).data.length ∧
      gzip_decompress_trailer ⟨1, 0xD3D99E8B⟩
          ⟨[0x8B, 0x9E, 0xD9, 0xD3, 1, 0, 0, 0], 0⟩ = .ok () :=
  ⟨by norm_num,
    ((gzip_trailer_validation ⟨1, 0xD3D99E8B⟩
          ⟨[0x8B, 0x9E, 0xD9, 0xD3, 1, 0, 0, 0], 0⟩ (by norm_num)).1).mpr
      (by norm_num [trailer_crc, trailer_isize, le32])⟩

/-! ## Guards of the main decode loop (`decompress_deflate.rs:516-539`)

The inner loop of `deflate_decompress_template` runs
`decode_block_instruction` only while the input has a readable overread window
and `out_stream.has_writable_length(DEFLATE_MAX_MATCH_LEN * 2)` holds.  The
loop is modelled generically over the decoder step, recording the states at
which a decode step is executed. -/

/-- `DEFLATE_MAX_MATCH_LEN`.  Modelled from the spec: `deflate_constants.rs` is
declared in `lib.rs` but absent from the sources; RFC 1951 and the spec fix
the maximum DEFLATE match length at 258. -/
def DEFLATE_MAX_MATCH_LEN : Nat := 258

/-- `FastDecodeEntry::MAX_LITERALS` (`fast_decode_entry.rs:40`). -/
def MAX_LITERALS : Nat := 2

/-- The bound `MAX_WRITE = 2 * (DEFLATE_MAX_MATCH_LEN + 2 * MAX_LITERALS)`
asserted by the claim (no such constant appears in the loop's code). -/
def MAX_WRITE_claimed : Nat := 2 * (DEFLATE_MAX_MATCH_LEN + 2 * MAX_LITERALS)

/-- The inner loop of `deflate_decompress_template` (lines 522-531), generic in
the decoder state `α`: `inOk` is `has_readable_overread()` on the input,
`outOf` projects the output window the guard consults, and `step` is
`decode_block_instruction` (returning `false` to break out of the loop).  The
returned list collects every state at which `step` is executed. -/
def inner_loop_trace {α : Type} (step : α → α × Bool) (inOk : α → Bool)
    (outOf : α → OutputWindow) : α → Nat → List α
  | _, 0 => []
  | s, fuel + 1 =>
    if inOk s && has_writable_length (outOf s) (DEFLATE_MAX_MATCH_LEN * 2) then
      let r := step s
      if r.2 then s :: inner_loop_trace step inOk outOf r.1 fuel
      else [s]
    else []

/-- C8 (amended).  Every state at which the inner loop executes a decode step
has a readable input overread window and at least
`DEFLATE_MAX_MATCH_LEN * 2 = 516` writable output bytes (the loop's guard is
`has_writable_length(DEFLATE_MAX_MATCH_LEN * 2)`, not the claimed
`2 * (DEFLATE_MAX_MATCH_LEN + 2 * MAX_LITERALS) = 524`). -/
theorem inner_loop_guard {α : Type} (step : α → α × Bool) (inOk : α → Bool)
    (outOf : α → OutputWindow) (s : α) (fuel : Nat) :
    ∀ t ∈ inner_loop_trace step inOk outOf s fuel,
      inOk t = true ∧
        (outOf t).cur + DEFLATE_MAX_MATCH_LEN * 2 ≤ (outOf t).last_usable := by
  induction fuel generalizing s with
  | zero => intro t ht; simp [inner_loop_trace] at ht
  | succ fuel ih =>
    intro t ht
    unfold inner_loop_trace at ht
    by_cases hg : inOk s && has_writable_length (outOf s) (DEFLATE_MAX_MATCH_LEN * 2)
    · simp only [hg, if_true] at ht
      have hg' := hg
      rw [Bool.and_eq_true] at hg'
      have hg1 : inOk s = true := hg'.1
      have hg2 : (outOf s).cur + DEFLATE_MAX_MATCH_LEN * 2 ≤ (outOf s).last_usable := by
        simpa [has_writable_length] using hg'.2
      by_cases hc : (step s).2
      · simp only [hc, if_true, List.mem_cons] at ht
        rcases ht with rfl | ht
        · exact ⟨hg1, hg2⟩
        · exact ih (step s).1 t ht
      · simp only [hc, Bool.false_eq_true, if_false, List.mem_singleton] at ht
        subst ht
        exact ⟨hg1, hg2⟩
    · simp only [hg, Bool.false_eq_true, if_false, List.not_mem_nil] at ht

/-- An output window with exactly 516 writable bytes. -/
def tightOutputWindow : OutputWindow :=
  { buffer := fun _ => 0
    cur := 0
    last_usable := DEFLATE_MAX_MATCH_LEN * 2
    crc_bytes := []
    written := 0
    sink_log := [] }

/-- C8 counterexample.  With exactly 516 writable bytes the guard passes and a
decode step executes, yet 516 is smaller than the claimed
`MAX_WRITE = 2 * (DEFLATE_MAX_MATCH_LEN + 2 * MAX_LITERALS) = 524`: the claim
as stated is false for this state. -/
theorem inner_loop_guard_counterexample :
    inner_loop_trace (fun s => (s, false)) (fun _ => true) (fun s => s)
        tightOutputWindow 1 = [tightOutputWindow] ∧
      ¬ (tightOutputWindow.cur + MAX_WRITE_claimed ≤ tightOutputWindow.last_usable) := by
  constructor
  · rfl
  · intro h
    simp only [tightOutputWindow, MAX_WRITE_claimed, DEFLATE_MAX_MATCH_LEN,
      MAX_LITERALS] at h
    omega

/-- Witness for the amended C8: the decode step of the trace above runs with
the input overread available and 516 writable bytes. -/
theorem inner_loop_guard_witness :
    tightOutputWindow ∈ inner_loop_trace (fun s => (s, false)) (fun _ => true)
        (fun s => s) tightOutputWindow 1 ∧
      (fun _ : OutputWindow => true) tightOutputWindow = true ∧
        tightOutputWindow.cur + DEFLATE_MAX_MATCH_LEN * 2 ≤
          tightOutputWindow.last_usable :=
  ⟨by
      rw [show inner_loop_trace (fun s => (s, false)) (fun _ => true) (fun s => s)
          tightOutputWindow 1 = [tightOutputWindow] from rfl]
      exact List.mem_singleton.mpr rfl,
    inner_loop_guard (fun s => (s, false)) (fun _ => true) (fun s => s)
      tightOutputWindow 1 tightOutputWindow
      (by
        rw [show inner_loop_trace (fun s => (s, false)) (fun _ => true) (fun s => s)
            tightOutputWindow 1 = [tightOutputWindow] from rfl]
        exact List.mem_singleton.mpr rfl)⟩

/-! ## The chunked input window (`streams/deflate_chunked_buffer_input.rs`)

`DeflateChunkedBufferInput`: a buffer of `buf_size + MAX_OVERREAD` bytes,
`position ≤ end_position`, a `global_position_offset` accumulating consumed
bytes, and the source callback.  `refill_buffer` (lines 30-58) keeps up to
`MAX_LOOK_BACK` bytes of history, shifts the live region to the front, and
pulls new bytes from the source callback into the tail; the callback's effect
is modelled by the list of bytes it writes. -/

/-- `DeflateInput::MAX_LOOK_BACK = size_of::<usize>() * 2` (`lib.rs:74`). -/
def MAX_LOOK_BACK_IN : Nat := 16

/-- `DeflateInput::MAX_OVERREAD = size_of::<usize>() * 2` (`lib.rs:75`). -/
def MAX_OVERREAD : Nat := 16

/-- State of `DeflateChunkedBufferInput`. -/
structure ChunkedInput where
  buffer : Nat → Nat
  buf_size : Nat
  global_position_offset : Nat
  position : Nat
  end_position : Nat
  overread_position_limit : Nat

/-- `tell_stream_pos` (`deflate_chunked_buffer_input.rs:82-84`). -/
def tell_stream_pos (s : ChunkedInput) : Nat :=
  s.global_position_offset + s.position

/-- `refill_buffer` (`deflate_chunked_buffer_input.rs:32-58`), with the bytes
produced by the source callback passed in as `newBytes`. -/
def refill_buffer (newBytes : List Nat) (s : ChunkedInput) : ChunkedInput :=
  let keep_buf_len := min s.position MAX_LOOK_BACK_IN
  let move_offset := s.position - keep_buf_len
  let move_amount := s.end_position - move_offset
  let buffer1 : Nat → Nat := fun a =>
    if a < move_amount then s.buffer (move_offset + a) else s.buffer a
  let position := s.position - move_offset
  let end_position := s.end_position - move_offset
  let count := newBytes.length
  let buffer2 : Nat → Nat := fun a =>
    if end_position ≤ a ∧ a < end_position + count then newBytes.getD (a - end_position) 0
    else buffer1 a
  { buffer := buffer2
    buf_size := s.buf_size
    global_position_offset := s.global_position_offset + move_offset
    position := position
    end_position := end_position + count
    overread_position_limit :=
      max (end_position + count - position) MAX_OVERREAD + position - MAX_OVERREAD }

/-- C10.  For `position ≤ end_position ≤ buf_size`, `refill_buffer` preserves
`tell_stream_pos`, moves the cursor to at most `MAX_LOOK_BACK`, keeps the
unread payload `[position, end_position)` byte-for-byte at the shifted
offsets, keeps the retained history bytes in front of it, and appends exactly
the source-callback bytes after the preserved payload. -/
theorem refill_buffer_frame (newBytes : List Nat) (s : ChunkedInput)
    (hpe : s.position ≤ s.end_position) (heb : s.end_position ≤ s.buf_size) :
    tell_stream_pos (refill_buffer newBytes s) = tell_stream_pos s ∧
    (refill_buffer newBytes s).position ≤ MAX_LOOK_BACK_IN ∧
    (refill_buffer newBytes s).position ≤ s.position ∧
    (∀ i, i < s.end_position - s.position →
      (refill_buffer newBytes s).buffer ((refill_buffer newBytes s).position + i)
        = s.buffer (s.position + i)) ∧
    (∀ i, i < (refill_buffer newBytes s).position →
      (refill_buffer newBytes s).buffer i
        = s.buffer (s.position - (refill_buffer newBytes s).position + i)) ∧
    (refill_buffer newBytes s).end_position
      = (refill_buffer newBytes s).position + (s.end_position - s.position)
          + newBytes.length ∧
    (∀ k, k < newBytes.length →
      (refill_buffer newBytes s).buffer
          ((refill_buffer newBytes s).position + (s.end_position - s.position) + k)
        = newBytes.getD k 0) := by
  refine ⟨?_, ?_, ?_, ?_, ?_, ?_, ?_⟩
  · simp only [tell_stream_pos, refill_buffer]
    omega
  · simp only [refill_buffer]
    omega
  · simp only [refill_buffer]
    omega
  · intro i hi
    simp only [refill_buffer]
    rw [if_neg (by omega)]
    rw [if_pos (by omega)]
    exact congrArg s.buffer (by omega)
  · intro i hi
    simp only [refill_buffer] at hi ⊢
    rw [if_neg (by omega)]
    rw [if_pos (by omega)]
    exact congrArg s.buffer (by omega)
  · simp only [refill_buffer]
    omega
  · intro k hk
    simp only [refill_buffer]
    rw [if_pos (by omega)]
    exact congrArg (fun n => newBytes.getD n 0) (by omega)

/-- Witness for C10: a concrete refill of a buffer holding payload `[position,
end_position) = [20, 23)` with two callback bytes appended. -/
theorem refill_buffer_frame_witness :
    (20 ≤ 23 ∧ 23 ≤ 64) ∧
      (tell_stream_pos (refill_buffer [7, 9]
          ⟨fun a => a, 64, 100, 20, 23, 0⟩) = tell_stream_pos ⟨fun a => a, 64, 100, 20, 23, 0⟩ ∧
        (refill_buffer [7, 9] ⟨fun a => a, 64, 100, 20, 23, 0⟩).position ≤ MAX_LOOK_BACK_IN ∧
        (refill_buffer [7, 9] ⟨fun a => a, 64, 100, 20, 23, 0⟩).position ≤ 20 ∧
        (∀ i, i < 3 →
          (refill_buffer [7, 9] ⟨fun a => a, 64, 100, 20, 23, 0⟩).buffer
              ((refill_buffer [7, 9] ⟨fun a => a, 64, 100, 20, 23, 0⟩).position + i)
            = (fun a : Nat => a) (20 + i)) ∧
        (∀ i, i < (refill_buffer [7, 9] ⟨fun a => a, 64, 100, 20, 23, 0⟩).position →
          (refill_buffer [7, 9] ⟨fun a => a, 64, 100, 20, 23, 0⟩).buffer i
            = (fun a : Nat => a)
                (20 - (refill_buffer [7, 9] ⟨fun a => a, 64, 100, 20, 23, 0⟩).position + i)) ∧
        (refill_buffer [7, 9] ⟨fun a => a, 64, 100, 20, 23, 0⟩).end_position
          = (refill_buffer [7, 9] ⟨fun a => a, 64, 100, 20, 23, 0⟩).position + 3 + 2 ∧
        (∀ k, k < 2 →
          (refill_buffer [7, 9] ⟨fun a => a, 64, 100, 20, 23, 0⟩).buffer
              ((refill_buffer [7, 9] ⟨fun a => a, 64, 100, 20, 23, 0⟩).position + 3 + k)
            = [7, 9].getD k 0)) :=
  ⟨⟨by norm_num, by norm_num⟩, by
    have h := refill_buffer_frame [7, 9] ⟨fun a => a, 64, 100, 20, 23, 0⟩
      (by norm_num) (by norm_num)
    simpa using h⟩

/-! ## The match-copy primitive `process_entry` (`decompress_deflate.rs:174-223`)

`process_entry` writes the pending literal pair at the output cursor with an
unconditional 2-byte store, advances by the literal count, then copies
`len_value` bytes from `cursor - offset`: one unconditional 8-byte word copy,
followed (for `0 < offset < 8`) by a byte-by-byte loop advancing 8 bytes per
iteration, or (for `length > 8`) by a word-by-word loop.  Bytes are modelled
one at a time; an 8-byte unaligned word load/store is modelled as reading the
eight source bytes first and then writing them. -/

/-- Write the bytes of `bs` at consecutive addresses starting at `a`. -/
def writeBytes : (Nat → Nat) → Nat → List Nat → (Nat → Nat)
  | m, _, [] => m
  | m, a, b :: bs => writeBytes (upd m a b) (a + 1) bs

/-- The eight bytes at `a`, as read by an unaligned `u64` load. -/
def readWord8 (m : Nat → Nat) (a : Nat) : List Nat :=
  (List.range 8).map (fun i => m (a + i))

/-- An unaligned word copy: load eight bytes from `src`, store them at `dst`. -/
def copy_word_unaligned (m : Nat → Nat) (src dst : Nat) : Nat → Nat :=
  writeBytes m dst (readWord8 m src)

/-- Sequential one-byte-at-a-time copy of `n` bytes from `src` to `dst`, in
ascending address order (the `for i in 0..8` inner loop, iterated). -/
def seqCopy : (Nat → Nat) → Nat → Nat → Nat → (Nat → Nat)
  | m, _, _, 0 => m
  | m, src, dst, n + 1 => seqCopy (upd m dst (m src)) (src + 1) (dst + 1) n

/-- The small-offset copy loop (`decompress_deflate.rs:191-204`): copy eight
bytes one at a time, subtract 8 from the remaining count, stop when it drops
to zero or below, else advance both pointers by 8 and repeat. -/
def small_offset_copy (m : Nat → Nat) (src dst rem : Nat) : Nat → Nat :=
  let m1 := seqCopy m src dst 8
  if rem ≤ 8 then m1
  else small_offset_copy m1 (src + 8) (dst + 8) (rem - 8)
  termination_by rem
  decreasing_by omega

/-- Total bytes written by `small_offset_copy` for a given remaining count. -/
def small_total (rem : Nat) : Nat :=
  if rem ≤ 8 then 8 else 8 + small_total (rem - 8)
  termination_by rem
  decreasing_by omega

/-- The large-length word-copy loop (`decompress_deflate.rs:205-219`): advance
both pointers by one word, subtract 8 from the remaining count, copy one word,
stop when the count drops to zero or below. -/
def big_len_copy (m : Nat → Nat) (src dst rem : Nat) : Nat → Nat :=
  let m1 := copy_word_unaligned m (src + 8) (dst + 8)
  if rem ≤ 8 then m1
  else big_len_copy m1 (src + 8) (dst + 8) (rem - 8)
  termination_by rem
  decreasing_by omega

/-- The fields of `FastDecodeEntry` consulted by `process_entry`
(`fast_decode_entry.rs`: `get_literals`, `get_literals_count`,
`get_len_value`). -/
structure FastEntryActions where
  literals : Nat
  literals_count : Nat
  len_value : Nat

/-- `DecodeEntryState` (`decompress_utils`): the pending decoded action. -/
structure DecodeEntryState where
  entry : FastEntryActions
  offset : Nat

/-- `process_entry` (`decompress_deflate.rs:174-223`). -/
def process_entry (m : Nat → Nat) (out_ptr0 : Nat) (st : DecodeEntryState) :
    (Nat → Nat) × Nat :=
  let m1 := writeBytes m out_ptr0
    [st.entry.literals % 256, st.entry.literals / 256 % 256]
  let out_ptr := out_ptr0 + st.entry.literals_count
  let src := out_ptr - st.offset
  let m2 := copy_word_unaligned m1 src out_ptr
  let length := st.entry.len_value
  let m3 :=
    if 0 < st.offset ∧ st.offset < 8 then small_offset_copy m2 src out_ptr length
    else if 8 < length then big_len_copy m2 src out_ptr length
    else m2
  (m3, out_ptr + length)

theorem writeBytes_frame (bs : List Nat) (m : Nat → Nat) (a x : Nat)
    (h : x < a ∨ a + bs.length ≤ x) : writeBytes m a bs x = m x := by
  induction bs generalizing m a with
  | nil => rfl
  | cons b bs ih =>
    simp only [writeBytes]
    rw [ih _ _ (by simp at h; omega)]
    exact upd_other m a b x (by simp at h; omega)

theorem writeBytes_get (bs : List Nat) (m : Nat → Nat) (a : Nat) :
    ∀ i, i < bs.length → writeBytes m a bs (a + i) = bs.getD i 0 := by
  induction bs generalizing m a with
  | nil => intro i hi; simp at hi
  | cons b bs ih =>
    intro i hi
    match i with
    | 0 =>
      simp only [writeBytes, Nat.add_zero]
      rw [writeBytes_frame _ _ _ _ (Or.inl (by omega))]
      simp [upd]
    | i + 1 =>
      simp only [writeBytes]
      have := ih (upd m a b) (a + 1) i (by simpa using hi)
      rw [show a + (i + 1) = a + 1 + i from by omega]
      simpa using this

theorem readWord8_length (m : Nat → Nat) (a : Nat) : (readWord8 m a).length = 8 := by
  simp [readWord8]

theorem readWord8_getD (m : Nat → Nat) (a i : Nat) (hi : i < 8) :
    (readWord8 m a).getD i 0 = m (a + i) := by
  simp [readWord8, List.getD, List.getElem?_map, List.getElem?_range, hi]

theorem copy_word_frame (m : Nat → Nat) (src dst x : Nat)
    (h : x < dst ∨ dst + 8 ≤ x) : copy_word_unaligned m src dst x = m x := by
  unfold copy_word_unaligned
  exact writeBytes_frame _ _ _ _ (by rw [readWord8_length]; exact h)

theorem copy_word_get (m : Nat → Nat) (src dst i : Nat) (hi : i < 8) :
    copy_word_unaligned m src dst (dst + i) = m (src + i) := by
  unfold copy_word_unaligned
  rw [writeBytes_get _ _ _ i (by rw [readWord8_length]; exact hi)]
  exact readWord8_getD m src i hi

theorem seqCopy_frame (n : Nat) (m : Nat → Nat) (src dst x : Nat)
    (h : x < dst ∨ dst + n ≤ x) : seqCopy m src dst n x = m x := by
  induction n generalizing m src dst with
  | zero => rfl
  | succ n ih =>
    simp only [seqCopy]
    rw [ih _ _ _ (by omega)]
    exact upd_other m dst (m src) x (by omega)

theorem seqCopy_rep (n : Nat) (m : Nat → Nat) (src dst : Nat) (hlt : src < dst) :
    ∀ j, j < n → seqCopy m src dst n (dst + j) = seqCopy m src dst n (src + j) := by
  induction n generalizing m src dst with
  | zero => intro j hj; omega
  | succ n ih =>
    intro j hj
    match j with
    | 0 =>
      simp only [seqCopy, Nat.add_zero]
      rw [seqCopy_frame _ _ _ _ _ (Or.inl (by omega)),
        seqCopy_frame _ _ _ _ _ (Or.inl (by omega))]
      rw [upd_same, upd_other m dst (m src) src (by omega)]
    | j + 1 =>
      simp only [seqCopy]
      have := ih (upd m dst (m src)) (src + 1) (dst + 1) (by omega) j (by omega)
      rw [show dst + (j + 1) = dst + 1 + j from by omega,
        show src + (j + 1) = src + 1 + j from by omega]
      exact this

theorem seqCopy_append (a b : Nat) (m : Nat → Nat) (src dst : Nat) :
    seqCopy m src dst (a + b) = seqCopy (seqCopy m src dst a) (src + a) (dst + a) b := by
  induction a generalizing m src dst with
  | zero => simp [seqCopy]
  | succ a ih =>
    rw [show a + 1 + b = (a + b) + 1 from by omega]
    simp only [seqCopy]
    rw [ih]
    rw [show src + 1 + a = src + (a + 1) from by omega,
      show dst + 1 + a = dst + (a + 1) from by omega]

theorem small_offset_copy_eq (rem : Nat) : ∀ (m : Nat → Nat) (src dst : Nat),
    small_offset_copy m src dst rem = seqCopy m src dst (small_total rem) := by
  induction rem using Nat.strong_induction_on with
  | _ rem ih =>
    intro m src dst
    rw [small_offset_copy, small_total]
    by_cases h : rem ≤ 8
    · rw [if_pos h, if_pos h]
    · rw [if_neg h, if_neg h]
      rw [ih (rem - 8) (by omega) _ _ _, seqCopy_append 8 (small_total (rem - 8))]

theorem small_total_ge (rem : Nat) : rem ≤ small_total rem ∧ 8 ≤ small_total rem := by
  induction rem using Nat.strong_induction_on with
  | _ rem ih =>
    rw [small_total]
    by_cases h : rem ≤ 8
    · rw [if_pos h]
      omega
    · rw [if_neg h]
      have := ih (rem - 8) (by omega)
      omega

theorem big_len_copy_frame_low (rem : Nat) : ∀ (m : Nat → Nat) (src dst x : Nat),
    x < dst + 8 → big_len_copy m src dst rem x = m x := by
  induction rem using Nat.strong_induction_on with
  | _ rem ih =>
    intro m src dst x hx
    rw [big_len_copy]
    by_cases h : rem ≤ 8
    · rw [if_pos h]
      exact copy_word_frame _ _ _ _ (Or.inl hx)
    · rw [if_neg h]
      rw [ih (rem - 8) (by omega) _ _ _ _ (by omega)]
      exact copy_word_frame _ _ _ _ (Or.inl hx)

theorem big_len_copy_rep (rem : Nat) : ∀ (m : Nat → Nat) (src dst off : Nat),
    8 ≤ off → dst = src + off → ∀ j, 8 ≤ j → j < rem + 8 →
      big_len_copy m src dst rem (dst + j) = big_len_copy m src dst rem (src + j) := by
  induction rem using Nat.strong_induction_on with
  | _ rem ih =>
    intro m src dst off hoff hdst j hj8 hjr
    rw [big_len_copy]
    by_cases h : rem ≤ 8
    · rw [if_pos h]
      rw [show dst + j = dst + 8 + (j - 8) from by omega,
        copy_word_get _ _ _ _ (by omega),
        show src + 8 + (j - 8) = src + j from by omega,
        copy_word_frame _ _ _ _ (Or.inl (by omega))]
    · rw [if_neg h]
      by_cases hj16 : j < 16
      · rw [big_len_copy_frame_low (rem - 8) _ _ _ _ (by omega),
          big_len_copy_frame_low (rem - 8) _ _ _ _ (by omega),
          show dst + j = dst + 8 + (j - 8) from by omega,
          copy_word_get _ _ _ _ (by omega),
          show src + 8 + (j - 8) = src + j from by omega,
          copy_word_frame _ _ _ _ (Or.inl (by omega))]
      · have h1 := ih (rem - 8) (by omega)
          (copy_word_unaligned m (src + 8) (dst + 8)) (src + 8) (dst + 8) off hoff
          (by omega) (j - 8) (by omega) (by omega)
        rw [show dst + j = dst + 8 + (j - 8) from by omega,
          show src + j = src + 8 + (j - 8) from by omega]
        exact h1

/-- C3.  For a decoded action with literal count `c ≤ 2`, match length `len`
and offset `off ≥ 1` (resolving inside the buffer), `process_entry` writes the
`c` pending literal bytes at the cursor, copies so that for every `j < len`
the final byte at `cursor + c + j` equals the final byte at
`cursor + c + j - off` (periods shorter than 8 included), and advances the
cursor by exactly `c + len`. -/
theorem process_entry_correct (m : Nat → Nat) (p : Nat) (st : DecodeEntryState)
    (hoff1 : 1 ≤ st.offset) (hoffb : st.offset ≤ p + st.entry.literals_count)
    (hc : st.entry.literals_count ≤ 2) :
    (process_entry m p st).2 = p + st.entry.literals_count + st.entry.len_value ∧
    (∀ i, i < st.entry.literals_count →
      (process_entry m p st).1 (p + i) = st.entry.literals / 256 ^ i % 256) ∧
    (∀ j, j < st.entry.len_value →
      (process_entry m p st).1 (p + st.entry.literals_count + j)
        = (process_entry m p st).1 (p + st.entry.literals_count + j - st.offset)) := by
  have hout : p + st.entry.literals_count - st.offset + st.offset
      = p + st.entry.literals_count := by omega
  refine ⟨rfl, ?_, ?_⟩
  · -- the pending literal bytes survive the copy
    intro i hi
    simp only [process_entry]
    have hlow : p + i < p + st.entry.literals_count := by omega
    have hm2 : copy_word_unaligned
        (writeBytes m p [st.entry.literals % 256, st.entry.literals / 256 % 256])
        (p + st.entry.literals_count - st.offset) (p + st.entry.literals_count) (p + i)
        = writeBytes m p [st.entry.literals % 256, st.entry.literals / 256 % 256]
            (p + i) :=
      copy_word_frame _ _ _ _ (Or.inl hlow)
    have hlit : writeBytes m p [st.entry.literals % 256, st.entry.literals / 256 % 256]
        (p + i) = st.entry.literals / 256 ^ i % 256 := by
      have hi2 : i < 2 := by omega
      rw [writeBytes_get _ _ _ i
        (by simp only [List.length_cons, List.length_nil]; omega)]
      interval_cases i
      · simp
      · simp
    split_ifs with h1 h2
    · rw [small_offset_copy_eq, seqCopy_frame _ _ _ _ _ (Or.inl hlow), hm2, hlit]
    · rw [big_len_copy_frame_low _ _ _ _ _ (by omega), hm2, hlit]
    · rw [hm2, hlit]
  · -- the copied region replicates the source at distance `off`
    intro j hj
    have hsub : p + st.entry.literals_count + j - st.offset
        = p + st.entry.literals_count - st.offset + j := by omega
    rw [hsub]
    simp only [process_entry]
    have hsrclt : p + st.entry.literals_count - st.offset
        < p + st.entry.literals_count := by omega
    split_ifs with h1 h2
    · -- small offset: the byte-by-byte loop
      rw [small_offset_copy_eq]
      have htot := small_total_ge st.entry.len_value
      exact seqCopy_rep _ _ _ _ hsrclt j (by omega)
    · -- word loop for lengths beyond one word
      have hoff8 : 8 ≤ st.offset := by omega
      by_cases hj8 : j < 8
      · rw [big_len_copy_frame_low _ _ _ _ _ (by omega),
          big_len_copy_frame_low _ _ _ _ _ (by omega),
          copy_word_get _ _ _ j hj8,
          copy_word_frame _ _ _ _ (Or.inl (by omega))]
      · exact big_len_copy_rep _ _ _ _ st.offset hoff8 (by omega) j (by omega)
          (by omega)
    · -- a single word copy covers the whole match
      have hoff8 : 8 ≤ st.offset := by omega
      have hj8 : j < 8 := by omega
      rw [copy_word_get _ _ _ j hj8,
        copy_word_frame _ _ _ _ (Or.inl (by omega))]

/-- Witness for C3: two literals `0x41 0x42` followed by a length-5 match at
offset 1 (the `EXC_SMALLOFFSET` family), executed at cursor 10. -/
theorem process_entry_correct_witness :
    (process_entry (fun _ => 0) 10 ⟨⟨0x4241, 2, 5⟩, 1⟩).2 = 10 + 2 + 5 ∧
    (process_entry (fun _ => 0) 10 ⟨⟨0x4241, 2, 5⟩, 1⟩).1 (10 + 0) = 0x41 ∧
    (process_entry (fun _ => 0) 10 ⟨⟨0x4241, 2, 5⟩, 1⟩).1 (10 + 2 + 3)
      = (process_entry (fun _ => 0) 10 ⟨⟨0x4241, 2, 5⟩, 1⟩).1 (10 + 2 + 3 - 1) := by
  have h := process_entry_correct (fun _ => 0) 10 ⟨⟨0x4241, 2, 5⟩, 1⟩
    (by norm_num) (by norm_num) (by norm_num)
  exact ⟨h.1, by simpa using h.2.1 0 (by norm_num), h.2.2 3 (by norm_num)⟩

/-! ## The driver loop (`lib.rs:144-164`)

`decompress_file_buffered` creates the input and output windows, allocates the
decode tables, and loops `while input has valid bytes { gzip_decompress }`.
The member handler (`libdeflate_gzip_decompress` acting through the windows)
is abstracted as `step`: on the stream bytes and the current position it
returns how many input bytes the member occupied and the bytes it delivered to
the sink.  `has_valid_bytes_slow` is `position < length` over the full
stream. -/

/-- The driver loop of `decompress_file_buffered` (`lib.rs:157-163`).  `none`
is fuel exhaustion. -/
def driver_loop (step : List Nat → Nat → Except LibdeflateError (Nat × List Nat))
    (data : List Nat) : Nat → List Nat → Nat →
      Option (Except LibdeflateError (List Nat))
  | _, _, 0 => none
  | pos, out, fuel + 1 =>
    if pos < data.length then
      match step data pos with
      | .error e => some (.error e)
      | .ok (consumed, chunk) => driver_loop step data (pos + consumed) (out ++ chunk) fuel
    else some (.ok out)

/-- `S` is a complete well-formed gzip member for the handler `step`: wherever
`S` sits in the stream, the handler consumes exactly the bytes of `S` and
delivers exactly `out`, independent of what follows. -/
def DecodesMember (step : List Nat → Nat → Except LibdeflateError (Nat × List Nat))
    (S out : List Nat) : Prop :=
  S ≠ [] ∧ ∀ pre post : List Nat,
    step (pre ++ (S ++ post)) pre.length = .ok (S.length, out)

/-- C9.  If `S1` and `S2` are complete well-formed gzip members, the driver on
`S1 ++ S2` succeeds and delivers exactly the concatenation of what it delivers
on `S1` alone and on `S2` alone. -/
theorem driver_loop_concatenates
    (step : List Nat → Nat → Except LibdeflateError (Nat × List Nat))
    (S1 S2 D1 D2 : List Nat) (fuel : Nat)
    (h1 : DecodesMember step S1 D1) (h2 : DecodesMember step S2 D2) :
    driver_loop step (S1 ++ S2) 0 [] (fuel + 3) = some (.ok (D1 ++ D2)) ∧
    driver_loop step S1 0 [] (fuel + 2) = some (.ok D1) ∧
    driver_loop step S2 0 [] (fuel + 2) = some (.ok D2) := by
  obtain ⟨hne1, hstep1⟩ := h1
  obtain ⟨hne2, hstep2⟩ := h2
  have hlen1 : 0 < S1.length := List.length_pos.mpr hne1
  have hlen2 : 0 < S2.length := List.length_pos.mpr hne2
  have hs1 : step (S1 ++ S2) 0 = .ok (S1.length, D1) := by
    have := hstep1 [] S2
    simpa using this
  have hs1a : step S1 0 = .ok (S1.length, D1) := by
    have := hstep1 [] []
    simpa using this
  have hs2a : step S2 0 = .ok (S2.length, D2) := by
    have := hstep2 [] []
    simpa using this
  have hs2 : step (S1 ++ S2) S1.length = .ok (S2.length, D2) := by
    have := hstep2 S1 []
    simpa using this
  refine ⟨?_, ?_, ?_⟩
  · rw [show fuel + 3 = (fuel + 2) + 1 from rfl]
    unfold driver_loop
    rw [if_pos (by simp; omega), hs1]
    rw [show fuel + 2 = (fuel + 1) + 1 from rfl]
    unfold driver_loop
    rw [if_pos (by simp; omega), show (0 : Nat) + S1.length = S1.length from by omega, hs2]
    unfold driver_loop
    rw [if_neg (by simp)]
    simp
  · rw [show fuel + 2 = (fuel + 1) + 1 from rfl]
    unfold driver_loop
    rw [if_pos (by omega), hs1a]
    unfold driver_loop
    rw [if_neg (by omega)]
    simp
  · rw [show fuel + 2 = (fuel + 1) + 1 from rfl]
    unfold driver_loop
    rw [if_pos (by omega), hs2a]
    unfold driver_loop
    rw [if_neg (by omega)]
    simp

/-- A toy member handler for the witness: each member is two bytes, the second
byte is the decompressed output. -/
def pairStep (data : List Nat) (pos : Nat) : Except LibdeflateError (Nat × List Nat) :=
  .ok (2, [data.getD (pos + 1) 0])

theorem pairStep_member (b : Nat) : DecodesMember pairStep [1, b] [b] := by
  refine ⟨by simp, ?_⟩
  intro pre post
  unfold pairStep
  have : (pre ++ ([1, b] ++ post)).getD (pre.length + 1) 0 = b := by
    rw [List.getD_append_right _ _ _ _ (by omega)]
    simp
  rw [this]
  simp

/-- Witness for C9: two concrete two-byte members through the driver. -/
theorem driver_loop_concatenates_witness :
    DecodesMember pairStep [1, 7] [7] ∧ DecodesMember pairStep [1, 9] [9] ∧
      driver_loop pairStep ([1, 7] ++ [1, 9]) 0 [] 3 = some (.ok ([7] ++ [9])) :=
  ⟨pairStep_member 7, pairStep_member 9,
    (driver_loop_concatenates pairStep [1, 7] [1, 9] [7] [9] 0
      (pairStep_member 7) (pairStep_member 9)).1⟩

/-! ## The Huffman decode-table builder (`decompress_utils.rs:718-1026`)

`build_decode_table` takes the per-symbol codeword lengths, counts them,
computes the used codespace in units of `2^-max_codeword_len`, rejects
overfull codes, accepts two incomplete shapes (empty code; a single symbol of
length 1) by filling the whole main table, and otherwise enumerates the
canonical codewords in bit-reversed order, filling the main table by
incremental doubling and spilling codewords longer than `table_bits` into
subtables.  The table is a total function from index to the packed 32-bit
entry; lengths are counted with `List.count`, and the counting sort of
`sorted_syms` (stable by (length, symbol)) is expressed as bucket
concatenation.  All data-dependent loops carry fuel. -/

/-- `DEFLATE_MAX_CODEWORD_LEN = 15`.  Modelled from the spec:
`deflate_constants.rs` is absent from the sources; RFC 1951 and the spec fix
the maximum codeword length at 15. -/
def DEFLATE_MAX_CODEWORD_LEN : Nat := 15

/-- `usize::MAX`, the initial `subtable_prefix` sentinel. -/
def USIZE_MAX : Nat := 2 ^ 64 - 1

/-- `len_counts[len]`: how many symbols have codeword length `len`. -/
def len_counts (lens : List Nat) (l : Nat) : Nat := lens.count l

/-- `sorted_syms` after skipping the unused symbols: symbols in increasing
order of (codeword length, symbol value) — the counting sort of
`decompress_utils.rs:758-774`, written as concatenated buckets. -/
def sorted_syms (lens : List Nat) (max_codeword_len : Nat) : List Nat :=
  (List.range max_codeword_len).flatMap (fun l =>
    (List.range lens.length).filter (fun s => lens.getD s 0 == l + 1))

/-- `codespace_used` in units of `2^-max_codeword_len`
(`decompress_utils.rs:759-765`). -/
def codespace_used (lens : List Nat) (max_codeword_len : Nat) : Nat :=
  (List.range max_codeword_len).foldl (fun cs l => 2 * cs + len_counts lens (l + 1)) 0

/-- `make_decode_table_entry`: or the remaining codeword length into the
static entry (`decompress_utils.rs:277-279`). -/
def make_decode_table_entry (r len : Nat) : Nat := r ||| len

/-- `DecodeEntry::new_subtable_pointer` (`decompress_utils.rs:213-226`). -/
def new_subtable_pointer (subtable_index subtable_bits main_table_bits : Nat) : Nat :=
  0x4000 ||| 0x8000 ||| (subtable_index <<< 16) ||| (subtable_bits <<< 8) ||| main_table_bits

/-- Result of `build_decode_table`: `false` (reject), `true` with the filled
table, or fuel exhaustion (the code would still be looping). -/
inductive BuildResult
  | reject
  | accept (table : Nat → Nat)
  | outOfFuel

/-- Copy the filled prefix `[0, cur_end)` of the table onto
`[cur_end, 2*cur_end)` (the incremental doubling copy). -/
def doubleTable (t : Nat → Nat) (cur_end : Nat) : Nat → Nat :=
  fun a => if cur_end ≤ a ∧ a < 2 * cur_end then t (a - cur_end) else t a

/-- The final doubling loop once the last codeword is placed
(`decompress_utils.rs:887-897`). -/
def finishTable (t : Nat → Nat) (cur_end len table_bits : Nat) : Nat → Nat :=
  if len < table_bits then finishTable (doubleTable t cur_end) (2 * cur_end) (len + 1) table_bits
  else t
  termination_by table_bits - len
  decreasing_by omega

/-- `len = 1; while len_counts[len] == 0 { len += 1 }`
(`decompress_utils.rs:867-873`). -/
def first_nonzero_len (counts : Nat → Nat) : Nat → Nat → Option Nat
  | _, 0 => none
  | len, fuel + 1 =>
    if counts len = 0 then first_nonzero_len counts (len + 1) fuel else some len

/-- The advance-to-next-codeword-length loop (`decompress_utils.rs:922-940`):
increment `len`, double the table while `len` stays within `table_bits`, stop
at the next nonzero count.  Returns `(table, cur_table_end, len, count)`. -/
def advance_len (counts : Nat → Nat) (table_bits : Nat) :
    (Nat → Nat) → Nat → Nat → Nat → Option ((Nat → Nat) × Nat × Nat × Nat)
  | _, _, _, 0 => none
  | t, cur_end, len, fuel + 1 =>
    let len1 := len + 1
    let p := if len1 ≤ table_bits then (doubleTable t cur_end, 2 * cur_end) else (t, cur_end)
    let count := counts len1
    if count ≠ 0 then some (p.1, p.2, len1, count)
    else advance_len counts table_bits p.1 p.2 len1 fuel

/-- The subtable-width loop (`decompress_utils.rs:966-972`): grow
`subtable_bits` until the remaining codespace fills the subtable.  Returns
`(subtable_bits, codespace_used)`. -/
def subtable_bits_loop (counts : Nat → Nat) (table_bits : Nat) :
    Nat → Nat → Nat → Option (Nat × Nat)
  | _, _, 0 => none
  | sb, cs, fuel + 1 =>
    if cs < 2 ^ sb then
      subtable_bits_loop counts table_bits (sb + 1)
        (2 * cs + counts (table_bits + (sb + 1))) fuel
    else some (sb, cs)

/-- The strided subtable fill (`decompress_utils.rs:1000-1009`). -/
def stride_fill (entry : Nat) : (Nat → Nat) → Nat → Nat → Nat → Nat → Option (Nat → Nat)
  | _, _, _, _, 0 => none
  | t, i, stride, cur_end, fuel + 1 =>
    let t1 := upd t i entry
    let i1 := i + stride
    if i1 ≥ cur_end then some t1 else stride_fill entry t1 i1 stride cur_end fuel

/-- `while count == 0 { len += 1; count = len_counts[len] }`
(`decompress_utils.rs:1021-1024`). -/
def next_count_loop (counts : Nat → Nat) : Nat → Nat → Option (Nat × Nat)
  | _, 0 => none
  | len, fuel + 1 =>
    let len1 := len + 1
    let count := counts len1
    if count = 0 then next_count_loop counts len1 fuel else some (len1, count)

/-- The subtable phase (`decompress_utils.rs:943-1025`): codewords longer than
`table_bits`. -/
def loopB (counts : Nat → Nat) (decode_results : List Nat) (table_bits : Nat) :
    List Nat → (Nat → Nat) → Nat → Nat → Nat → Nat → Nat → Nat → Nat → BuildResult
  | _, _, _, _, _, _, _, _, 0 => .outOfFuel
  | syms, t, codeword, len, count, cur_end, sub_pref, sub_start, fuel + 1 =>
    let pref := codeword &&& (2 ^ table_bits - 1)
    let stage1 : Option ((Nat → Nat) × Nat × Nat × Nat) :=
      if pref ≠ sub_pref then
        match subtable_bits_loop counts table_bits (len - table_bits) count fuel with
        | none => none
        | some (sub_bits, _) =>
          some (upd t pref (new_subtable_pointer cur_end sub_bits table_bits),
            pref, cur_end, cur_end + 2 ^ sub_bits)
      else some (t, sub_pref, sub_start, cur_end)
    match stage1 with
    | none => .outOfFuel
    | some (t1, sub_pref1, sub_start1, cur_end1) =>
      let entry := make_decode_table_entry (decode_results.getD (syms.headD 0) 0)
        (len - table_bits)
      let syms1 := syms.tail
      match stride_fill entry t1 (sub_start1 + (codeword >>> table_bits))
          (2 ^ (len - table_bits)) cur_end1 fuel with
      | none => .outOfFuel
      | some t2 =>
        if codeword = 2 ^ len - 1 then .accept t2
        else
          let bit := 2 ^ Nat.log2 (codeword ^^^ (2 ^ len - 1))
          let codeword1 := (codeword &&& (bit - 1)) ||| bit
          let count1 := count - 1
          if count1 = 0 then
            match next_count_loop counts len fuel with
            | none => .outOfFuel
            | some (len1, count2) =>
              loopB counts decode_results table_bits syms1 t2 codeword1 len1 count2
                cur_end1 sub_pref1 sub_start1 fuel
          else
            loopB counts decode_results table_bits syms1 t2 codeword1 len count1
              cur_end1 sub_pref1 sub_start1 fuel

/-- The main-table phase (`decompress_utils.rs:866-941`): codewords of length
at most `table_bits`, placed with incremental table doubling; falls through to
`loopB` when `len` exceeds `table_bits`. -/
def loopA (counts : Nat → Nat) (decode_results : List Nat) (table_bits : Nat) :
    List Nat → (Nat → Nat) → Nat → Nat → Nat → Nat → Nat → BuildResult
  | _, _, _, _, _, _, 0 => .outOfFuel
  | syms, t, codeword, len, count, cur_end, fuel + 1 =>
    if len > table_bits then
      loopB counts decode_results table_bits syms t codeword len count
        (2 ^ table_bits) USIZE_MAX 0 fuel
    else if count ≠ 0 then
      let t1 := upd t codeword
        (make_decode_table_entry (decode_results.getD (syms.headD 0) 0) len)
      let syms1 := syms.tail
      if codeword = cur_end - 1 then .accept (finishTable t1 cur_end len table_bits)
      else
        let bit := 2 ^ Nat.log2 (codeword ^^^ (cur_end - 1))
        let codeword1 := (codeword &&& (bit - 1)) ||| bit
        loopA counts decode_results table_bits syms1 t1 codeword1 len (count - 1)
          cur_end fuel
    else
      match advance_len counts table_bits t cur_end len fuel with
      | none => .outOfFuel
      | some (t1, cur_end1, len1, count1) =>
        loopA counts decode_results table_bits syms t1 codeword len1 count1
          cur_end1 fuel

/-- `build_decode_table` (`decompress_utils.rs:718-1026`).  `lens` is the
length vector (`num_syms = lens.length`); `decode_results` the static entry
templates; the result table is total, with untouched indices 0. -/
def build_decode_table (lens decode_results : List Nat)
    (table_bits max_codeword_len : Nat) (fuel : Nat) : BuildResult :=
  let counts := len_counts lens
  let cs := codespace_used lens max_codeword_len
  if cs > 2 ^ max_codeword_len then .reject
  else if cs < 2 ^ max_codeword_len then
    if cs = 0 then
      let entry := make_decode_table_entry (decode_results.getD 0 0) 1
      .accept (fun i => if i < 2 ^ table_bits then entry else 0)
    else if cs ≠ 2 ^ (max_codeword_len - 1) ∨ counts 1 ≠ 1 then .reject
    else
      let sym := (sorted_syms lens max_codeword_len).headD 0
      let entry := make_decode_table_entry (decode_results.getD sym 0) 1
      .accept (fun i => if i < 2 ^ table_bits then entry else 0)
  else
    match first_nonzero_len counts 1 fuel with
    | none => .outOfFuel
    | some len =>
      loopA counts decode_results table_bits (sorted_syms lens max_codeword_len)
        (fun _ => 0) 0 len (counts len) (2 ^ len) fuel

theorem loopB_ne_reject (counts : Nat → Nat) (dr : List Nat) (tb : Nat) :
    ∀ (fuel : Nat) (syms : List Nat) (t : Nat → Nat)
      (codeword len count cur_end sub_pref sub_start : Nat),
      loopB counts dr tb syms t codeword len count cur_end sub_pref sub_start fuel
        ≠ .reject := by
  intro fuel
  induction fuel with
  | zero =>
    intro syms t codeword len count cur_end sub_pref sub_start
    simp [loopB]
  | succ fuel ih =>
    intro syms t codeword len count cur_end sub_pref sub_start
    simp only [loopB]
    split
    · simp
    · split
      · simp
      · split
        · simp
        · split
          · split
            · simp
            · exact ih _ _ _ _ _ _ _ _
          · exact ih _ _ _ _ _ _ _ _

theorem loopA_ne_reject (counts : Nat → Nat) (dr : List Nat) (tb : Nat) :
    ∀ (fuel : Nat) (syms : List Nat) (t : Nat → Nat) (codeword len count cur_end : Nat),
      loopA counts dr tb syms t codeword len count cur_end fuel ≠ .reject := by
  intro fuel
  induction fuel with
  | zero =>
    intro syms t codeword len count cur_end
    simp [loopA]
  | succ fuel ih =>
    intro syms t codeword len count cur_end
    simp only [loopA]
    split
    · exact loopB_ne_reject counts dr tb fuel _ _ _ _ _ _ _ _
    · split
      · split
        · simp
        · exact ih _ _ _ _ _ _
      · split
        · simp
        · exact ih _ _ _ _ _ _

/-- The early validity checks are the only sources of `false`:
`build_decode_table` rejects exactly the overfull codes and the incomplete
codes outside the two accepted shapes, in the code's own terms. -/
theorem build_reject_iff (lens dr : List Nat) (tb maxl fuel : Nat) :
    build_decode_table lens dr tb maxl fuel = .reject ↔
      (2 ^ maxl < codespace_used lens maxl ∨
        (codespace_used lens maxl < 2 ^ maxl ∧ codespace_used lens maxl ≠ 0 ∧
          (codespace_used lens maxl ≠ 2 ^ (maxl - 1) ∨ len_counts lens 1 ≠ 1))) := by
  unfold build_decode_table
  by_cases h1 : 2 ^ maxl < codespace_used lens maxl
  · rw [if_pos (by omega)]
    simp [h1]
  · rw [if_neg (by omega)]
    by_cases h2 : codespace_used lens maxl < 2 ^ maxl
    · rw [if_pos h2]
      by_cases h3 : codespace_used lens maxl = 0
      · rw [if_pos h3]
        simp [h1, h2, h3]
      · rw [if_neg h3]
        by_cases h4 : codespace_used lens maxl ≠ 2 ^ (maxl - 1) ∨ len_counts lens 1 ≠ 1
        · rw [if_pos h4]
          simp [h1, h2, h3, h4]
        · rw [if_neg h4]
          simp [h1, h2, h3, h4]
    · rw [if_neg h2]
      have hnr : ∀ r, (match first_nonzero_len (len_counts lens) 1 fuel with
          | none => BuildResult.outOfFuel
          | some len =>
            loopA (len_counts lens) dr tb (sorted_syms lens maxl)
              (fun _ => 0) 0 len (len_counts lens len) (2 ^ len) fuel) = r →
          r ≠ .reject := by
        intro r hr
        rcases hfn : first_nonzero_len (len_counts lens) 1 fuel with _ | len
        · rw [hfn] at hr
          simp at hr
          simp [← hr]
        · rw [hfn] at hr
          simp only at hr
          rw [← hr]
          exact loopA_ne_reject _ _ _ _ _ _ _ _ _ _
      constructor
      · intro hr
        exact absurd hr (hnr _ rfl)
      · intro hor
        omega

/-- The number of used symbols: those with a nonzero codeword length. -/
def usedCount (lens : List Nat) : Nat := (lens.filter (fun l => l != 0)).length

theorem codespace_used_sum (lens : List Nat) (maxl : Nat) :
    codespace_used lens maxl
      = ∑ l ∈ Finset.range maxl, len_counts lens (l + 1) * 2 ^ (maxl - 1 - l) := by
  induction maxl with
  | zero => simp [codespace_used]
  | succ n ih =>
    rw [codespace_used, List.range_succ, List.foldl_append]
    have hstep : List.foldl (fun cs l => 2 * cs + len_counts lens (l + 1))
        (List.foldl (fun cs l => 2 * cs + len_counts lens (l + 1)) 0 (List.range n)) [n]
        = 2 * codespace_used lens n + len_counts lens (n + 1) := by
      simp [List.foldl, codespace_used]
    rw [hstep, Finset.sum_range_succ, ih]
    have hdist : ∑ l ∈ Finset.range n, len_counts lens (l + 1) * 2 ^ (n + 1 - 1 - l)
        = 2 * ∑ l ∈ Finset.range n, len_counts lens (l + 1) * 2 ^ (n - 1 - l) := by
      rw [Finset.mul_sum]
      refine Finset.sum_congr rfl ?_
      intro l hl
      have hl' : l < n := Finset.mem_range.mp hl
      have he : n + 1 - 1 - l = (n - 1 - l) + 1 := by omega
      rw [he, pow_succ]
      ring
    rw [hdist]
    have he2 : n + 1 - 1 - n = 0 := by omega
    rw [he2]
    ring

theorem usedCount_sum (lens : List Nat) (maxl : Nat)
    (hlens : ∀ l ∈ lens, l ≤ maxl) :
    usedCount lens = ∑ l ∈ Finset.range maxl, len_counts lens (l + 1) := by
  induction lens with
  | nil => simp [usedCount, len_counts]
  | cons a tl ih =>
    have ha := hlens a (by simp)
    have htl : ∀ l ∈ tl, l ≤ maxl := fun l hl => hlens l (by simp [hl])
    have hcnt : ∀ l : Nat, len_counts (a :: tl) (l + 1)
        = len_counts tl (l + 1) + if a = l + 1 then 1 else 0 := by
      intro l
      by_cases hal : a = l + 1
      · subst hal
        simp [len_counts, List.count_cons]
      · simp [len_counts, List.count_cons, hal, Ne.symm hal]
    rw [show (∑ l ∈ Finset.range maxl, len_counts (a :: tl) (l + 1))
        = (∑ l ∈ Finset.range maxl, len_counts tl (l + 1))
          + ∑ l ∈ Finset.range maxl, (if a = l + 1 then 1 else 0) from by
      rw [← Finset.sum_add_distrib]
      exact Finset.sum_congr rfl (fun l _ => hcnt l)]
    rw [← ih htl]
    by_cases h0 : a = 0
    · subst h0
      have hz : (∑ l ∈ Finset.range maxl, if (0 : Nat) = l + 1 then 1 else 0) = 0 := by
        refine Finset.sum_eq_zero ?_
        intro l _
        simp
      rw [hz]
      simp [usedCount]
    · have hone : (∑ l ∈ Finset.range maxl, if a = l + 1 then 1 else 0) = 1 := by
        rw [show (fun l => if a = l + 1 then (1 : Nat) else 0)
            = fun l => if l = a - 1 then 1 else 0 from by
          funext l
          by_cases hl : l = a - 1
          · subst hl
            rw [if_pos (by omega), if_pos rfl]
          · rw [if_neg (by omega), if_neg hl]]
        rw [Finset.sum_ite_eq' (Finset.range maxl) (a - 1) (fun _ => 1)]
        rw [if_pos (Finset.mem_range.mpr (by omega))]
      rw [hone]
      simp [usedCount, h0]

theorem codespace_zero_iff (lens : List Nat) (maxl : Nat)
    (hlens : ∀ l ∈ lens, l ≤ maxl) :
    codespace_used lens maxl = 0 ↔ usedCount lens = 0 := by
  rw [codespace_used_sum, usedCount_sum lens maxl hlens]
  constructor
  · intro h
    refine Finset.sum_eq_zero ?_
    intro l hl
    have := (Finset.sum_eq_zero_iff.mp h) l hl
    have h2 : (2 : Nat) ^ (maxl - 1 - l) ≠ 0 := by positivity
    exact Nat.eq_zero_of_mul_eq_zero this |>.resolve_right h2
  · intro h
    refine Finset.sum_eq_zero ?_
    intro l hl
    have := (Finset.sum_eq_zero_iff.mp h) l hl
    simp [this]

theorem codespace_single_iff (lens : List Nat) (maxl : Nat) (hmax : 1 ≤ maxl)
    (hlens : ∀ l ∈ lens, l ≤ maxl) (hc1 : len_counts lens 1 = 1) :
    codespace_used lens maxl = 2 ^ (maxl - 1) ↔ usedCount lens = 1 := by
  obtain ⟨n, rfl⟩ : ∃ n, maxl = n + 1 := ⟨maxl - 1, by omega⟩
  rw [codespace_used_sum, usedCount_sum lens (n + 1) hlens]
  rw [Finset.sum_range_succ' (fun l => len_counts lens (l + 1) * 2 ^ (n + 1 - 1 - l)) n,
    Finset.sum_range_succ' (fun l => len_counts lens (l + 1)) n]
  simp only [Nat.add_sub_cancel, Nat.sub_zero, Nat.zero_add]
  rw [hc1]
  have hAB : (∑ l ∈ Finset.range n, len_counts lens (l + 1 + 1) * 2 ^ (n - (l + 1)) = 0)
      ↔ (∑ l ∈ Finset.range n, len_counts lens (l + 1 + 1)) = 0 := by
    constructor
    · intro h
      refine Finset.sum_eq_zero ?_
      intro l hl
      have h1 := (Finset.sum_eq_zero_iff.mp h) l hl
      have h2 : (0 : Nat) < 2 ^ (n - (l + 1)) := by positivity
      rcases Nat.mul_eq_zero.mp h1 with h3 | h3
      · exact h3
      · omega
    · intro h
      refine Finset.sum_eq_zero ?_
      intro l hl
      have h1 := (Finset.sum_eq_zero_iff.mp h) l hl
      simp [h1]
  set A := ∑ l ∈ Finset.range n, len_counts lens (l + 1 + 1) * 2 ^ (n - (l + 1)) with hA
  set B := ∑ l ∈ Finset.range n, len_counts lens (l + 1 + 1) with hB
  constructor
  · intro h
    have hA0 : A = 0 := by omega
    have hB0 := hAB.mp hA0
    omega
  · intro h
    have hB0 : B = 0 := by omega
    have hA0 := hAB.mpr hB0
    omega

theorem count_eq_filter_range (lens : List Nat) (v : Nat) :
    ((List.range lens.length).filter (fun s => lens.getD s 0 == v)).length
      = lens.count v := by
  induction lens with
  | nil => simp
  | cons a tl ih =>
    rw [List.length_cons, List.range_succ_eq_map]
    rw [List.filter_cons]
    have hmap : (List.filter (fun s => (a :: tl).getD s 0 == v)
          ((List.range tl.length).map Nat.succ))
        = ((List.range tl.length).filter (fun s => tl.getD s 0 == v)).map Nat.succ := by
      rw [List.filter_map]
      rfl
    by_cases hav : a = v
    · subst hav
      simp only [List.getD_cons_zero, beq_self_eq_true, if_true]
      rw [List.length_cons, hmap, List.length_map, ih]
      simp [List.count_cons]
    · have : ((a :: tl).getD 0 0 == v) = false := by
        simp [hav]
      rw [this]
      simp only [Bool.false_eq_true, if_false]
      rw [hmap, List.length_map, ih]
      simp [List.count_cons, hav, Ne.symm hav]

theorem flatMap_nil_of_all_nil {α β : Type} (xs : List α) (f : α → List β)
    (h : ∀ x ∈ xs, f x = []) : xs.flatMap f = [] := by
  induction xs with
  | nil => rfl
  | cons a tl ih =>
    rw [List.flatMap_cons, h a (by simp), ih (fun x hx => h x (by simp [hx]))]
    rfl

theorem sorted_syms_single (lens : List Nat) (maxl sym : Nat) (hmax : 1 ≤ maxl)
    (hlens : ∀ l ∈ lens, l ≤ maxl) (hsym : sym < lens.length)
    (h1 : lens.getD sym 0 = 1) (hu : usedCount lens = 1) :
    sorted_syms lens maxl = [sym] := by
  have hc1 : 1 ≤ len_counts lens 1 := by
    have hm : (1 : Nat) ∈ lens := by
      have := List.getD_eq_getElem lens 0 hsym
      rw [h1] at this
      rw [this]
      exact List.getElem_mem hsym
    simpa [len_counts] using List.count_pos_iff.mpr hm
  -- exactly one used symbol: the length-1 bucket holds it, all others are empty
  have hsum := usedCount_sum lens maxl hlens
  rw [hu] at hsum
  obtain ⟨n, rfl⟩ : ∃ n, maxl = n + 1 := ⟨maxl - 1, by omega⟩
  rw [Finset.sum_range_succ' (fun l => len_counts lens (l + 1)) n] at hsum
  simp only [Nat.zero_add] at hsum
  have hrest : ∑ l ∈ Finset.range n, len_counts lens (l + 1 + 1) = 0 := by omega
  have hcount1 : len_counts lens 1 = 1 := by omega
  have hbucket0 : (List.range lens.length).filter (fun s => lens.getD s 0 == 1)
      = [sym] := by
    have hlen : ((List.range lens.length).filter
        (fun s => lens.getD s 0 == 1)).length = 1 := by
      rw [count_eq_filter_range]
      exact hcount1
    obtain ⟨b, hb⟩ := List.length_eq_one.mp hlen
    have hmem : sym ∈ (List.range lens.length).filter
        (fun s => lens.getD s 0 == 1) := by
      rw [List.mem_filter]
      exact ⟨List.mem_range.mpr hsym, by simp only [h1, beq_self_eq_true]⟩
    rw [hb] at hmem
    rw [hb, List.mem_singleton.mp hmem]
  have hbucketRest : ∀ l, l < n → (List.range lens.length).filter
      (fun s => lens.getD s 0 == l + 1 + 1) = [] := by
    intro l hl
    have hz := (Finset.sum_eq_zero_iff.mp hrest) l (Finset.mem_range.mpr hl)
    have := count_eq_filter_range lens (l + 1 + 1)
    rw [show lens.count (l + 1 + 1) = len_counts lens (l + 1 + 1) from rfl, hz] at this
    exact List.length_eq_zero.mp this
  unfold sorted_syms
  rw [List.range_succ_eq_map, List.flatMap_cons]
  have hrest2 : (((List.range n).map Nat.succ).flatMap (fun l =>
      (List.range lens.length).filter (fun s => lens.getD s 0 == l + 1))) = [] := by
    rw [List.flatMap_map]
    refine flatMap_nil_of_all_nil _ _ ?_
    intro x hx
    have hx' : x < n := List.mem_range.mp hx
    exact hbucketRest x hx'
  rw [hrest2]
  simp only [Nat.zero_add]
  rw [hbucket0]
  rfl

/-- C2.  `build_decode_table` returns `false` exactly on inadmissible length
vectors: overfull codespace, or an incomplete code other than the two accepted
shapes (no symbol used; exactly one symbol used, of codeword length 1).  In
the two accepted incomplete shapes every one of the `2^table_bits` main-table
slots holds the single entry for that symbol (the arbitrary symbol 0 when no
symbol is used). -/
theorem build_decode_table_validity (lens decode_results : List Nat)
    (table_bits max_codeword_len fuel : Nat)
    (hmax : 1 ≤ max_codeword_len) (hlens : ∀ l ∈ lens, l ≤ max_codeword_len) :
    (build_decode_table lens decode_results table_bits max_codeword_len fuel = .reject
      ↔ ¬ (codespace_used lens max_codeword_len ≤ 2 ^ max_codeword_len ∧
            (codespace_used lens max_codeword_len < 2 ^ max_codeword_len →
              usedCount lens = 0 ∨
                (usedCount lens = 1 ∧ len_counts lens 1 = 1)))) ∧
    (usedCount lens = 0 →
      build_decode_table lens decode_results table_bits max_codeword_len fuel
        = .accept (fun i => if i < 2 ^ table_bits then
            make_decode_table_entry (decode_results.getD 0 0) 1 else 0)) ∧
    (∀ sym, sym < lens.length → lens.getD sym 0 = 1 → usedCount lens = 1 →
      build_decode_table lens decode_results table_bits max_codeword_len fuel
        = .accept (fun i => if i < 2 ^ table_bits then
            make_decode_table_entry (decode_results.getD sym 0) 1 else 0)) := by
  have hp : 0 < 2 ^ max_codeword_len := by positivity
  have hkey : (codespace_used lens max_codeword_len = 0 ∨
      (codespace_used lens max_codeword_len = 2 ^ (max_codeword_len - 1) ∧
        len_counts lens 1 = 1)) ↔
      (usedCount lens = 0 ∨ (usedCount lens = 1 ∧ len_counts lens 1 = 1)) := by
    constructor
    · rintro (h | ⟨h, hc1⟩)
      · exact Or.inl ((codespace_zero_iff lens _ hlens).mp h)
      · exact Or.inr ⟨(codespace_single_iff lens _ hmax hlens hc1).mp h, hc1⟩
    · rintro (h | ⟨h, hc1⟩)
      · exact Or.inl ((codespace_zero_iff lens _ hlens).mpr h)
      · exact Or.inr ⟨(codespace_single_iff lens _ hmax hlens hc1).mpr h, hc1⟩
  refine ⟨?_, ?_, ?_⟩
  · rw [build_reject_iff]
    constructor
    · rintro (h | ⟨hlt, hne, hbad⟩) hcl
      · exact absurd hcl.1 (by omega)
      · have hdisj := hcl.2 hlt
        rcases hkey.mpr hdisj with h0 | ⟨hs, hc1⟩
        · exact hne h0
        · rcases hbad with hb | hb
          · exact hb hs
          · exact hb hc1
    · intro hncl
      by_cases h1 : 2 ^ max_codeword_len < codespace_used lens max_codeword_len
      · exact Or.inl h1
      · right
        by_cases h2 : codespace_used lens max_codeword_len < 2 ^ max_codeword_len
        · have hnd : ¬ (usedCount lens = 0 ∨
              (usedCount lens = 1 ∧ len_counts lens 1 = 1)) :=
            fun hd => hncl ⟨by omega, fun _ => hd⟩
          refine ⟨h2, fun h0 => hnd (hkey.mp (Or.inl h0)), ?_⟩
          by_cases hc1 : len_counts lens 1 = 1
          · exact Or.inl (fun hs => hnd (hkey.mp (Or.inr ⟨hs, hc1⟩)))
          · exact Or.inr hc1
        · exact absurd ⟨by omega, fun hlt => absurd hlt h2⟩ hncl
  · intro hu0
    have h0 : codespace_used lens max_codeword_len = 0 :=
      (codespace_zero_iff _ _ hlens).mpr hu0
    simp only [build_decode_table]
    rw [if_neg (by omega), if_pos (by omega), if_pos h0]
  · intro sym hsym h1sym hu1
    have hc1 : len_counts lens 1 = 1 := by
      have hge : 1 ≤ len_counts lens 1 := by
        have hm : (1 : Nat) ∈ lens := by
          have := List.getD_eq_getElem lens 0 hsym
          rw [h1sym] at this
          rw [this]
          exact List.getElem_mem hsym
        simpa [len_counts] using List.count_pos_iff.mpr hm
      have hle : len_counts lens 1 ≤ 1 := by
        have hsum := usedCount_sum lens max_codeword_len hlens
        rw [hu1] at hsum
        obtain ⟨n, rfl⟩ : ∃ n, max_codeword_len = n + 1 := ⟨max_codeword_len - 1, by omega⟩
        rw [Finset.sum_range_succ' (fun l => len_counts lens (l + 1)) n] at hsum
        simp only [Nat.zero_add] at hsum
        omega
      omega
    have hcs : codespace_used lens max_codeword_len = 2 ^ (max_codeword_len - 1) :=
      (codespace_single_iff lens _ hmax hlens hc1).mpr hu1
    have hlt : codespace_used lens max_codeword_len < 2 ^ max_codeword_len := by
      rw [hcs]
      exact Nat.pow_lt_pow_right (by omega) (by omega)
    have hnz : codespace_used lens max_codeword_len ≠ 0 := by
      rw [hcs]
      positivity
    simp only [build_decode_table]
    rw [if_neg (by omega), if_pos hlt, if_neg hnz,
      if_neg (by push_neg; exact ⟨hcs, hc1⟩)]
    rw [sorted_syms_single lens max_codeword_len sym hmax hlens hsym h1sym hu1]
    rfl

/-- Witness for C2: the single-symbol length-1 vector `[1]` fills all four
slots of a 2-bit main table with the symbol's entry. -/
theorem build_decode_table_validity_witness :
    ((1 : Nat) ≤ 1 ∧ (∀ l ∈ [1], l ≤ 1) ∧ 0 < ([1] : List Nat).length ∧
        ([1] : List Nat).getD 0 0 = 1 ∧ usedCount [1] = 1) ∧
      build_decode_table [1] [7 <<< 16] 2 1 100
        = .accept (fun i => if i < 2 ^ 2 then
            make_decode_table_entry (([7 <<< 16] : List Nat).getD 0 0) 1 else 0) :=
  ⟨⟨le_refl 1, by intro l hl; simp at hl; omega, by decide, by decide, by decide⟩,
    (build_decode_table_validity [1] [7 <<< 16] 2 1 100 (le_refl 1)
        (by intro l hl; simp at hl; omega)).2.2 0 (by decide) (by decide) (by decide)⟩

/-! ## The dynamic-block header decoder (`decode_blocks.rs:73-224`)

`decode_dynamic_huffman_block` reads HLIT/HDIST/HCLEN, reads the permuted
3-bit precode lengths, builds the precode table through `build_decode_table`,
and expands the `HLIT+HDIST` litlen/offset code lengths by repeatedly decoding
precode symbols.  The bit reader is modelled at the contract level of its
`bits`/`remove_bits`/`pop_bits` operations: an LSB-first bit sequence with a
position (the refill mechanics behind that contract are the subject of the
`BitStream` model above). -/

/-- The idealised bit reader: an LSB-first bit sequence with a read
position. -/
structure BitReader where
  stream : Nat → Bool
  pos : Nat

/-- `bits n`: the next `n` bits, LSB first, without removing them. -/
def BitReader.bits (r : BitReader) (n : Nat) : Nat :=
  ((List.range n).map (fun i => if r.stream (r.pos + i) then 2 ^ i else 0)).sum

/-- `remove_bits n`. -/
def BitReader.remove_bits (r : BitReader) (n : Nat) : BitReader :=
  { r with pos := r.pos + n }

/-- `pop_bits n`. -/
def BitReader.pop_bits (r : BitReader) (n : Nat) : Nat × BitReader :=
  (r.bits n, r.remove_bits n)

theorem BitReader.remove_remove (r : BitReader) (a b : Nat) :
    (r.remove_bits a).remove_bits b = r.remove_bits (a + b) := by
  simp [BitReader.remove_bits, Nat.add_assoc]

theorem BitReader.bits_lt (r : BitReader) (n : Nat) : r.bits n < 2 ^ n := by
  induction n with
  | zero => simp [BitReader.bits]
  | succ n ih =>
    have : r.bits (n + 1) ≤ r.bits n + 2 ^ n := by
      unfold BitReader.bits
      rw [List.range_succ, List.map_append, List.sum_append]
      simp only [List.map_cons, List.map_nil, List.sum_cons, List.sum_nil]
      by_cases h : r.stream (r.pos + n) <;> simp [h]
    have hp : (2 : Nat) ^ (n + 1) = 2 ^ n + 2 ^ n := by ring
    omega

/-- `DEFLATE_NUM_PRECODE_SYMS = 19`.  Modelled from the spec
(`deflate_constants.rs` absent from src). -/
def DEFLATE_NUM_PRECODE_SYMS : Nat := 19

/-- `PRECODE_TABLEBITS` (`decompress_deflate.rs:54`). -/
def PRECODE_TABLEBITS : Nat := 7

/-- `DEFLATE_MAX_PRE_CODEWORD_LEN = 7`.  Modelled from the spec
(`deflate_constants.rs` absent from src). -/
def DEFLATE_MAX_PRE_CODEWORD_LEN : Nat := 7

/-- The fixed precode storage permutation (`decode_blocks.rs:79-81`). -/
def DEFLATE_PRECODE_LENS_PERMUTATION : List Nat :=
  [16, 17, 18, 0, 8, 7, 9, 6, 10, 5, 11, 4, 12, 3, 13, 2, 14, 1, 15]

/-- `PRECODE_DECODE_RESULTS` (`decompress_utils.rs:299-320`): the decode result
for precode symbol `s` is `s` itself, shifted into the result field. -/
def PRECODE_DECODE_RESULTS : List Nat :=
  (List.range DEFLATE_NUM_PRECODE_SYMS).map (fun s => s <<< 16)

/-- The precode-length read phase (`decode_blocks.rs:100-115`): the
`HCLEN + 4` explicit 3-bit lengths stored through the permutation, the
remaining permuted positions zeroed. -/
def read_precode_lens (r : BitReader) (num_explicit : Nat) : (Nat → Nat) × BitReader :=
  let acc := (List.range num_explicit).foldl
    (fun (acc : (Nat → Nat) × BitReader) (i : Nat) =>
      let p := acc.2.pop_bits 3
      (upd acc.1 (DEFLATE_PRECODE_LENS_PERMUTATION.getD i 0) p.1, p.2))
    ((fun _ => 0), r)
  ((List.range' num_explicit (DEFLATE_NUM_PRECODE_SYMS - num_explicit)).foldl
      (fun lens i => upd lens (DEFLATE_PRECODE_LENS_PERMUTATION.getD i 0) 0) acc.1,
    acc.2)

/-- Write the previous length into the next six slots
(`decode_blocks.rs:172-177`). -/
def write_repeat6 (lens : Nat → Nat) (i v : Nat) : Nat → Nat :=
  upd (upd (upd (upd (upd (upd lens
    (i + 0) v) (i + 1) v) (i + 2) v) (i + 3) v) (i + 4) v) (i + 5) v

/-- Write zero into the next ten slots (`decode_blocks.rs:183-192`). -/
def write_zeros10 (lens : Nat → Nat) (i : Nat) : Nat → Nat :=
  upd (upd (upd (upd (upd (upd (upd (upd (upd (upd lens
    (i + 0) 0) (i + 1) 0) (i + 2) 0) (i + 3) 0) (i + 4) 0) (i + 5) 0)
    (i + 6) 0) (i + 7) 0) (i + 8) 0) (i + 9) 0

/-- `lens[i..i+n].fill(0)` (`decode_blocks.rs:198-200`). -/
def fill_zeros (lens : Nat → Nat) (i n : Nat) : Nat → Nat :=
  fun a => if i ≤ a ∧ a < i + n then 0 else lens a

/-- The code-length expansion loop as the code performs it
(`decode_blocks.rs:121-203`): decode a precode symbol from the table; `< 16`
stores an explicit length; `16` repeats the previous length 3-6 times (writing
six slots, advancing by the repeat count); `17` writes zeros 3-10 times (ten
slots written); `18` writes 11-138 zeros; `16` at position 0 is `BadData`.
Returns the lengths, the final write position and the reader. -/
def expand_lens_code (table : Nat → Nat) (total : Nat) :
    (Nat → Nat) → Nat → BitReader → Nat →
      Option (Except LibdeflateError ((Nat → Nat) × Nat × BitReader))
  | _, _, _, 0 => none
  | lens, i, r, fuel + 1 =>
    if i < total then
      let entry := table (r.bits DEFLATE_MAX_PRE_CODEWORD_LEN)
      let r1 := r.remove_bits (entry % 256)
      let presym := (entry % 2 ^ 32) >>> 16
      if presym < 16 then
        expand_lens_code table total (upd lens i (presym % 256)) (i + 1) r1 fuel
      else if presym = 16 then
        if i = 0 then some (.error .BadData)
        else
          let rep_val := lens (i - 1)
          let p := r1.pop_bits 2
          let rep_count := 3 + p.1
          expand_lens_code table total (write_repeat6 lens i rep_val)
            (i + rep_count) p.2 fuel
      else if presym = 17 then
        let p := r1.pop_bits 3
        let rep_count := 3 + p.1
        expand_lens_code table total (write_zeros10 lens i) (i + rep_count) p.2 fuel
      else
        let p := r1.pop_bits 7
        let rep_count := 11 + p.1
        expand_lens_code table total (fill_zeros lens i rep_count)
          (i + rep_count) p.2 fuel
    else some (.ok (lens, i, r))

/-- The code-length expansion as the claim words it: identical symbol
decoding, but `16` repeats the previous length exactly 3-6 times, `17` writes
exactly 3-10 zeros, `18` writes exactly 11-138 zeros. -/
def expand_lens_claim (table : Nat → Nat) (total : Nat) :
    (Nat → Nat) → Nat → BitReader → Nat →
      Option (Except LibdeflateError ((Nat → Nat) × Nat × BitReader))
  | _, _, _, 0 => none
  | lens, i, r, fuel + 1 =>
    if i < total then
      let entry := table (r.bits DEFLATE_MAX_PRE_CODEWORD_LEN)
      let r1 := r.remove_bits (entry % 256)
      let presym := (entry % 2 ^ 32) >>> 16
      if presym < 16 then
        expand_lens_claim table total (upd lens i presym) (i + 1) r1 fuel
      else if presym = 16 then
        if i = 0 then some (.error .BadData)
        else
          let rep_val := lens (i - 1)
          let p := r1.pop_bits 2
          let rep_count := 3 + p.1
          expand_lens_claim table total
            (fun a => if i ≤ a ∧ a < i + rep_count then rep_val else lens a)
            (i + rep_count) p.2 fuel
      else if presym = 17 then
        let p := r1.pop_bits 3
        let rep_count := 3 + p.1
        expand_lens_claim table total (fill_zeros lens i rep_count)
          (i + rep_count) p.2 fuel
      else
        let p := r1.pop_bits 7
        let rep_count := 11 + p.1
        expand_lens_claim table total (fill_zeros lens i rep_count)
          (i + rep_count) p.2 fuel
    else some (.ok (lens, i, r))

/-- Decoded dynamic-block header: symbol counts, the expanded length vector
with its final write position, and the remaining bit stream. -/
structure DynHeader where
  num_litlen_syms : Nat
  num_offset_syms : Nat
  lens : Nat → Nat
  lens_end : Nat
  reader : BitReader

/-- Package an expansion outcome into the header record. -/
def pack_header (nl no : Nat)
    (x : Option (Except LibdeflateError ((Nat → Nat) × Nat × BitReader))) :
    Option (Except LibdeflateError DynHeader) :=
  match x with
  | none => none
  | some (.error e) => some (.error e)
  | some (.ok (lens, i, r')) => some (.ok ⟨nl, no, lens, i, r'⟩)

/-- `decode_dynamic_huffman_block` (`decode_blocks.rs:73-224`) up to the
litlen/offset table builds: HLIT (5 bits, +257), HDIST (5 bits, +1), HCLEN
(4 bits, +4); permuted precode lengths; precode table built by
`build_decode_table`; lengths expanded by `expand_lens_code`. -/
def decode_dynamic_huffman_block (r : BitReader) (fuel : Nat) :
    Option (Except LibdeflateError DynHeader) :=
  let p1 := r.pop_bits 5
  let num_litlen_syms := p1.1 + 257
  let p2 := p1.2.pop_bits 5
  let num_offset_syms := p2.1 + 1
  let p3 := p2.2.pop_bits 4
  let num_explicit_precode_lens := p3.1 + 4
  let pl := read_precode_lens p3.2 num_explicit_precode_lens
  match build_decode_table
      ((List.range DEFLATE_NUM_PRECODE_SYMS).map pl.1) PRECODE_DECODE_RESULTS
      PRECODE_TABLEBITS DEFLATE_MAX_PRE_CODEWORD_LEN fuel with
  | .reject => some (.error .BadData)
  | .outOfFuel => none
  | .accept table =>
    pack_header num_litlen_syms num_offset_syms
      (expand_lens_code table (num_litlen_syms + num_offset_syms)
        (fun _ => 0) 0 pl.2 fuel)

/-- The claim-worded header decoder: same header reads, permutation fill and
precode build, with the expansion written per the claim
(`expand_lens_claim`). -/
def decode_dynamic_huffman_block_claim (r : BitReader) (fuel : Nat) :
    Option (Except LibdeflateError DynHeader) :=
  let p1 := r.pop_bits 5
  let num_litlen_syms := p1.1 + 257
  let p2 := p1.2.pop_bits 5
  let num_offset_syms := p2.1 + 1
  let p3 := p2.2.pop_bits 4
  let num_explicit_precode_lens := p3.1 + 4
  let pl := read_precode_lens p3.2 num_explicit_precode_lens
  match build_decode_table
      ((List.range DEFLATE_NUM_PRECODE_SYMS).map pl.1) PRECODE_DECODE_RESULTS
      PRECODE_TABLEBITS DEFLATE_MAX_PRE_CODEWORD_LEN fuel with
  | .reject => some (.error .BadData)
  | .outOfFuel => none
  | .accept table =>
    pack_header num_litlen_syms num_offset_syms
      (expand_lens_claim table (num_litlen_syms + num_offset_syms)
        (fun _ => 0) 0 pl.2 fuel)

/-- Equivalence of two expansion outcomes: same shape, same final position and
reader, and the length vectors agree below the final position (the code writes
scratch values beyond it). -/
def ExpandEquiv :
    Option (Except LibdeflateError ((Nat → Nat) × Nat × BitReader)) →
      Option (Except LibdeflateError ((Nat → Nat) × Nat × BitReader)) → Prop
  | none, none => True
  | some (.error e1), some (.error e2) => e1 = e2
  | some (.ok (l1, i1, r1)), some (.ok (l2, i2, r2)) =>
    i1 = i2 ∧ r1 = r2 ∧ ∀ a, a < i1 → l1 a = l2 a
  | _, _ => False

/-- Equivalence of two decoded headers: same counts, final position and
reader, and equal lengths below the final position. -/
def DynEquiv :
    Option (Except LibdeflateError DynHeader) →
      Option (Except LibdeflateError DynHeader) → Prop
  | none, none => True
  | some (.error e1), some (.error e2) => e1 = e2
  | some (.ok h1), some (.ok h2) =>
    h1.num_litlen_syms = h2.num_litlen_syms ∧
    h1.num_offset_syms = h2.num_offset_syms ∧
    h1.lens_end = h2.lens_end ∧ h1.reader = h2.reader ∧
    ∀ a, a < h1.lens_end → h1.lens a = h2.lens a
  | _, _ => False

theorem write_repeat6_spec (lens : Nat → Nat) (i v a : Nat) :
    write_repeat6 lens i v a = if i ≤ a ∧ a < i + 6 then v else lens a := by
  simp only [write_repeat6, upd]
  split_ifs <;> omega

set_option maxHeartbeats 1000000 in
theorem write_zeros10_spec (lens : Nat → Nat) (i a : Nat) :
    write_zeros10 lens i a = if i ≤ a ∧ a < i + 10 then 0 else lens a := by
  simp only [write_zeros10, upd]
  split_ifs <;> omega

theorem perm_distinct : ∀ i, i < 19 → ∀ j, j < 19 → i ≠ j →
    DEFLATE_PRECODE_LENS_PERMUTATION.getD i 0 ≠
      DEFLATE_PRECODE_LENS_PERMUTATION.getD j 0 := by decide

/-- The fueled expansion from the code refines the claim-worded expansion:
same control flow, same reader arithmetic, and the produced length vectors
agree on every index below the final write position. -/
theorem expand_code_claim_equiv (table : Nat → Nat) (total : Nat) :
    ∀ fuel lens1 lens2 i r, (∀ a, a < i → lens1 a = lens2 a) →
      ExpandEquiv (expand_lens_code table total lens1 i r fuel)
        (expand_lens_claim table total lens2 i r fuel) := by
  intro fuel
  induction fuel with
  | zero =>
    intro lens1 lens2 i r h
    exact trivial
  | succ fuel ih =>
    intro lens1 lens2 i r h
    simp only [expand_lens_code, expand_lens_claim, BitReader.pop_bits]
    by_cases hi : i < total
    · rw [if_pos hi, if_pos hi]
      by_cases h16 : (table (r.bits DEFLATE_MAX_PRE_CODEWORD_LEN) % 2 ^ 32) >>> 16 < 16
      · rw [if_pos h16, if_pos h16]
        apply ih
        intro a ha
        rcases Nat.lt_succ_iff_lt_or_eq.mp ha with ha' | ha'
        · rw [upd_other _ _ _ _ (by omega), upd_other _ _ _ _ (by omega)]
          exact h a ha'
        · subst ha'
          rw [upd_same, upd_same, Nat.mod_eq_of_lt (by omega)]
      · rw [if_neg h16, if_neg h16]
        by_cases h16' : (table (r.bits DEFLATE_MAX_PRE_CODEWORD_LEN) % 2 ^ 32) >>> 16 = 16
        · rw [if_pos h16', if_pos h16']
          by_cases hi0 : i = 0
          · rw [if_pos hi0, if_pos hi0]
            exact rfl
          · rw [if_neg hi0, if_neg hi0]
            rw [h _ (by omega : i - 1 < i)]
            apply ih
            intro a ha
            have hb2 : (r.remove_bits
                (table (r.bits DEFLATE_MAX_PRE_CODEWORD_LEN) % 256)).bits 2 < 4 :=
              BitReader.bits_lt _ _
            simp only [write_repeat6_spec]
            split_ifs with hA hB hB
            · rfl
            · omega
            · omega
            · exact h a (by omega)
        · rw [if_neg h16', if_neg h16']
          by_cases h17 : (table (r.bits DEFLATE_MAX_PRE_CODEWORD_LEN) % 2 ^ 32) >>> 16 = 17
          · rw [if_pos h17, if_pos h17]
            apply ih
            intro a ha
            have hb3 : (r.remove_bits
                (table (r.bits DEFLATE_MAX_PRE_CODEWORD_LEN) % 256)).bits 3 < 8 :=
              BitReader.bits_lt _ _
            simp only [write_zeros10_spec, fill_zeros]
            split_ifs with hA hB hB
            · rfl
            · omega
            · omega
            · exact h a (by omega)
          · rw [if_neg h17, if_neg h17]
            apply ih
            intro a ha
            simp only [fill_zeros]
            split_ifs with hA
            · rfl
            · exact h a (by omega)
    · rw [if_neg hi, if_neg hi]
      exact ⟨rfl, rfl, h⟩

/-- Equivalent expansion outcomes package into equivalent headers. -/
theorem pack_header_equiv (nl no : Nat)
    (x y : Option (Except LibdeflateError ((Nat → Nat) × Nat × BitReader)))
    (hxy : ExpandEquiv x y) :
    DynEquiv (pack_header nl no x) (pack_header nl no y) := by
  rcases x with _ | x1
  · rcases y with _ | y1
    · exact trivial
    · rcases y1 with e2 | ⟨l2, i2, r2⟩ <;> exact False.elim hxy
  · rcases x1 with e1 | ⟨l1, i1, r1⟩
    · rcases y with _ | y1
      · exact False.elim hxy
      · rcases y1 with e2 | ⟨l2, i2, r2⟩
        · exact hxy
        · exact False.elim hxy
    · rcases y with _ | y1
      · exact False.elim hxy
      · rcases y1 with e2 | ⟨l2, i2, r2⟩
        · exact False.elim hxy
        · exact ⟨rfl, rfl, hxy.1, hxy.2.1, hxy.2.2⟩

/-- Inversion of a successful packaging. -/
theorem pack_header_ok (nl no : Nat)
    (x : Option (Except LibdeflateError ((Nat → Nat) × Nat × BitReader)))
    (hdr : DynHeader) (h : pack_header nl no x = some (.ok hdr)) :
    hdr.num_litlen_syms = nl ∧ hdr.num_offset_syms = no ∧
      ∃ lens i r', x = some (.ok (lens, i, r')) ∧ hdr.lens_end = i := by
  rcases x with _ | x1
  · exact absurd h (by simp [pack_header])
  · rcases x1 with e1 | ⟨l1, i1, r1⟩
    · exact absurd h (by simp [pack_header])
    · have h' : (⟨nl, no, l1, i1, r1⟩ : DynHeader) = hdr := by
        have hh := h
        simp only [pack_header, Option.some.injEq, Except.ok.injEq] at hh
        exact hh
      subst h'
      exact ⟨rfl, rfl, l1, i1, r1, rfl, rfl⟩

/-- A successful expansion ends at or beyond the requested total. -/
theorem expand_code_ok_ge (table : Nat → Nat) (total : Nat) :
    ∀ fuel lens i r lens' i' r',
      expand_lens_code table total lens i r fuel = some (.ok (lens', i', r')) →
      total ≤ i' := by
  intro fuel
  induction fuel with
  | zero =>
    intro lens i r lens' i' r' h
    exact absurd h (by simp [expand_lens_code])
  | succ fuel ih =>
    intro lens i r lens' i' r' h
    simp only [expand_lens_code, BitReader.pop_bits] at h
    by_cases hi : i < total
    · rw [if_pos hi] at h
      split at h
      · exact ih _ _ _ _ _ _ h
      · split at h
        · split at h
          · exact absurd h (by simp)
          · exact ih _ _ _ _ _ _ h
        · split at h
          · exact ih _ _ _ _ _ _ h
          · exact ih _ _ _ _ _ _ h
    · rw [if_neg hi] at h
      simp only [Option.some.injEq, Except.ok.injEq, Prod.mk.injEq] at h
      omega

theorem precode_zero_fold : ∀ (n s : Nat) (lens : Nat → Nat) (x : Nat),
    ((List.range' s n).foldl
        (fun l i => upd l (DEFLATE_PRECODE_LENS_PERMUTATION.getD i 0) 0) lens) x
      = if (List.range' s n).any
            (fun i => x == DEFLATE_PRECODE_LENS_PERMUTATION.getD i 0)
        then 0 else lens x := by
  intro n
  induction n with
  | zero =>
    intro s lens x
    simp
  | succ n ih =>
    intro s lens x
    rw [List.range'_succ, List.foldl_cons, List.any_cons, ih]
    by_cases hx : x = DEFLATE_PRECODE_LENS_PERMUTATION.getD s 0
    · have hbx : (x == DEFLATE_PRECODE_LENS_PERMUTATION.getD s 0) = true := by
        simp only [beq_iff_eq]
        exact hx
      rw [hbx, Bool.true_or, if_pos rfl]
      split_ifs with hrest
      · rfl
      · rw [hx]
        exact upd_same _ _ _
    · have hbx : (x == DEFLATE_PRECODE_LENS_PERMUTATION.getD s 0) = false := by
        simp only [beq_eq_false_iff_ne, ne_eq]
        exact hx
      rw [hbx, Bool.false_or]
      split_ifs with hrest
      · rfl
      · exact upd_other _ _ _ _ hx

theorem precode_explicit_fold (r : BitReader) :
    ∀ k, k ≤ DEFLATE_NUM_PRECODE_SYMS →
      (((List.range k).foldl
          (fun (acc : (Nat → Nat) × BitReader) (i : Nat) =>
            (upd acc.1 (DEFLATE_PRECODE_LENS_PERMUTATION.getD i 0) (acc.2.bits 3),
              acc.2.remove_bits 3))
          ((fun _ => 0), r)).2 = r.remove_bits (3 * k))
      ∧ (∀ i, i < k →
          ((List.range k).foldl
              (fun (acc : (Nat → Nat) × BitReader) (i : Nat) =>
                (upd acc.1 (DEFLATE_PRECODE_LENS_PERMUTATION.getD i 0) (acc.2.bits 3),
                  acc.2.remove_bits 3))
              ((fun _ => 0), r)).1 (DEFLATE_PRECODE_LENS_PERMUTATION.getD i 0)
            = (r.remove_bits (3 * i)).bits 3)
      ∧ (∀ x, (∀ i, i < k → x ≠ DEFLATE_PRECODE_LENS_PERMUTATION.getD i 0) →
          ((List.range k).foldl
              (fun (acc : (Nat → Nat) × BitReader) (i : Nat) =>
                (upd acc.1 (DEFLATE_PRECODE_LENS_PERMUTATION.getD i 0) (acc.2.bits 3),
                  acc.2.remove_bits 3))
              ((fun _ => 0), r)).1 x = 0) := by
  intro k
  induction k with
  | zero =>
    intro _
    refine ⟨?_, ?_, ?_⟩
    · cases r
      simp [BitReader.remove_bits]
    · intro i hi
      omega
    · intro x _
      rfl
  | succ k ih =>
    intro hk
    have hk19 : k + 1 ≤ 19 := hk
    obtain ⟨ih2, ih1, ih0⟩ := ih (by omega)
    rw [List.range_succ]
    simp only [List.foldl_append, List.foldl_cons, List.foldl_nil]
    refine ⟨?_, ?_, ?_⟩
    · rw [ih2, BitReader.remove_remove]
      exact congrArg r.remove_bits (by ring)
    · intro i hi
      rcases Nat.lt_succ_iff_lt_or_eq.mp hi with hi' | hi'
      · rw [upd_other _ _ _ _ (perm_distinct i (by omega) k (by omega) (by omega))]
        exact ih1 i hi'
      · subst hi'
        rw [upd_same, ih2]
    · intro x hx
      rw [upd_other _ _ _ _ (hx k (by omega))]
      exact ih0 x (fun i hi => hx i (by omega))

/-- The precode read phase, fully characterised: each explicit slot receives
the `i`-th 3-bit field through the permutation, the remaining permuted slots
are zero, and the reader advances by `3 * num_explicit` bits. -/
theorem read_precode_lens_spec (r : BitReader) (k : Nat)
    (hk : k ≤ DEFLATE_NUM_PRECODE_SYMS) :
    (∀ i, i < k →
        (read_precode_lens r k).1 (DEFLATE_PRECODE_LENS_PERMUTATION.getD i 0)
          = (r.remove_bits (3 * i)).bits 3)
    ∧ (∀ i, k ≤ i → i < DEFLATE_NUM_PRECODE_SYMS →
        (read_precode_lens r k).1 (DEFLATE_PRECODE_LENS_PERMUTATION.getD i 0) = 0)
    ∧ (read_precode_lens r k).2 = r.remove_bits (3 * k) := by
  have hk19 : k ≤ 19 := hk
  obtain ⟨hf2, hf1, hf0⟩ := precode_explicit_fold r k hk
  simp only [read_precode_lens, BitReader.pop_bits]
  refine ⟨?_, ?_, hf2⟩
  · intro i hi
    rw [precode_zero_fold]
    have hany : ((List.range' k (DEFLATE_NUM_PRECODE_SYMS - k)).any
        (fun j => DEFLATE_PRECODE_LENS_PERMUTATION.getD i 0
          == DEFLATE_PRECODE_LENS_PERMUTATION.getD j 0)) = false := by
      rw [List.any_eq_false]
      intro j hj
      rw [List.mem_range'_1] at hj
      have h19 : (DEFLATE_NUM_PRECODE_SYMS : Nat) = 19 := rfl
      rw [h19] at hj
      simp only [beq_iff_eq]
      exact perm_distinct i (by omega) j (by omega) (by omega)
    rw [hany, if_neg (by simp)]
    exact hf1 i hi
  · intro i hik hi19
    rw [precode_zero_fold]
    have hany : ((List.range' k (DEFLATE_NUM_PRECODE_SYMS - k)).any
        (fun j => DEFLATE_PRECODE_LENS_PERMUTATION.getD i 0
          == DEFLATE_PRECODE_LENS_PERMUTATION.getD j 0)) = true := by
      rw [List.any_eq_true]
      refine ⟨i, ?_, by simp⟩
      rw [List.mem_range'_1]
      have h19 : (DEFLATE_NUM_PRECODE_SYMS : Nat) = 19 := rfl
      have hi19' : i < 19 := hi19
      omega
    rw [hany, if_pos rfl]

/-- **C4.** The dynamic-block header decoder (`decode_blocks.rs:73-224`): it
reads HLIT (5 bits, `+ 257` litlen symbols), HDIST (5 bits, `+ 1` offset
symbols) and HCLEN (4 bits, `+ 4` explicit 3-bit precode lengths) stored at
the positions of the fixed permutation `[16,17,18,0,8,7,9,6,10,5,11,4,12,3,
13,2,14,1,15]` with the remaining precode lengths zeroed; the `HLIT+HDIST`
code lengths are then expanded exactly as the claim states — symbols `< 16`
are explicit lengths, `16` repeats the previous length `3..6` times (2 extra
bits), `17` writes `3..10` zeros (3 extra bits), `18` writes `11..138` zeros
(7 extra bits), the code's over-wide scratch writes never differing from the
claim's exact writes below the final position — and a precode symbol `16`
decoded at position 0 yields `Err(BadData)`. -/
theorem dynamic_header_decode_correct (r : BitReader) (fuel : Nat) :
    DynEquiv (decode_dynamic_huffman_block r fuel)
        (decode_dynamic_huffman_block_claim r fuel)
    ∧ (∀ hdr, decode_dynamic_huffman_block r fuel = some (.ok hdr) →
        hdr.num_litlen_syms = r.bits 5 + 257 ∧
        hdr.num_offset_syms = (r.remove_bits 5).bits 5 + 1 ∧
        hdr.num_litlen_syms + hdr.num_offset_syms ≤ hdr.lens_end)
    ∧ (∀ (r' : BitReader) (k : Nat), k ≤ DEFLATE_NUM_PRECODE_SYMS →
        (∀ i, i < k →
            (read_precode_lens r' k).1 (DEFLATE_PRECODE_LENS_PERMUTATION.getD i 0)
              = (r'.remove_bits (3 * i)).bits 3)
          ∧ (∀ i, k ≤ i → i < DEFLATE_NUM_PRECODE_SYMS →
              (read_precode_lens r' k).1
                (DEFLATE_PRECODE_LENS_PERMUTATION.getD i 0) = 0)
          ∧ (read_precode_lens r' k).2 = r'.remove_bits (3 * k))
    ∧ (∀ r' : BitReader,
        3 ≤ 3 + r'.bits 2 ∧ 3 + r'.bits 2 ≤ 6 ∧
        3 ≤ 3 + r'.bits 3 ∧ 3 + r'.bits 3 ≤ 10 ∧
        11 ≤ 11 + r'.bits 7 ∧ 11 + r'.bits 7 ≤ 138)
    ∧ (∀ (table : Nat → Nat) (total : Nat) (lens : Nat → Nat) (f : Nat),
        0 < total →
        (table (r.bits DEFLATE_MAX_PRE_CODEWORD_LEN) % 2 ^ 32) >>> 16 = 16 →
        expand_lens_code table total lens 0 r (f + 1) =
          some (.error .BadData)) := by
  refine ⟨?_, ?_, fun r' k hk => read_precode_lens_spec r' k hk, ?_, ?_⟩
  · simp only [decode_dynamic_huffman_block, decode_dynamic_huffman_block_claim,
      BitReader.pop_bits]
    split
    · exact rfl
    · exact trivial
    · exact pack_header_equiv _ _ _ _
        (expand_code_claim_equiv _ _ fuel _ _ _ _ (fun a ha => rfl))
  · intro hdr h
    simp only [decode_dynamic_huffman_block, BitReader.pop_bits] at h
    split at h
    · exact absurd h (by simp)
    · exact absurd h (by simp)
    · obtain ⟨h1, h2, lens, i, r', hx, h3⟩ := pack_header_ok _ _ _ _ h
      refine ⟨h1, h2, ?_⟩
      have hge := expand_code_ok_ge _ _ _ _ _ _ _ _ _ hx
      omega
  · intro r'
    have h2 := BitReader.bits_lt r' 2
    have h3 := BitReader.bits_lt r' 3
    have h7 := BitReader.bits_lt r' 7
    have e2 : (2 : Nat) ^ 2 = 4 := by norm_num
    have e3 : (2 : Nat) ^ 3 = 8 := by norm_num
    have e7 : (2 : Nat) ^ 7 = 128 := by norm_num
    rw [e2] at h2
    rw [e3] at h3
    rw [e7] at h7
    refine ⟨by omega, by omega, by omega, by omega, by omega, by omega⟩
  · intro table total lens f h0 h16
    simp only [expand_lens_code, BitReader.pop_bits]
    rw [if_pos h0, h16]
    norm_num

/-- Witness: on the all-zero bit stream with a table whose every entry decodes
to precode symbol 16, the first expansion step at position 0 reports
`BadData`, as `dynamic_header_decode_correct` asserts. -/
theorem dynamic_header_decode_correct_witness :
    expand_lens_code (fun _ => 16 <<< 16) 258 (fun _ => 0) 0
        ⟨fun _ => false, 0⟩ 5 = some (.error .BadData) :=
  (dynamic_header_decode_correct ⟨fun _ => false, 0⟩ 7).2.2.2.2
    (fun _ => 16 <<< 16) 258 (fun _ => 0) 4 (by norm_num) (by decide)

end StreamingLibdeflate
